import Mathlib

/-!
Verification development for a TypeScript DES implementation
(`src/utils/des.ts`, `src/utils/key.ts`).

The code manipulates bits as JavaScript strings of the characters
between quotes zero and one.  We embed JavaScript strings as `List Char`
and keep the source behaviour faithfully, including the quirks:

in JavaScript, indexing a string out of range yields `undefined`, and
appending `undefined` to a string appends the nine characters of the word
undefined; `parseInt` on a non-digit yields `NaN`, `NaN.toString` yields
the three characters of NaN, and `String.padStart` then pads that text.
Fallible code (statements that `throw`) is embedded in `Except DESError`.

The constant tables of `constants.ts` are not part of the sources we were
given, so they are modelled from the specification (canonical DES tables;
the left-shift schedule is pinned verbatim by the spec).
-/

namespace DES

/-- JavaScript `String.prototype.padStart(target, c)` for a one-character pad. -/
def jsPadStart (s : List Char) (target : Nat) (c : Char) : List Char :=
  List.replicate (target - s.length) c ++ s

/-- JavaScript `String.prototype.padEnd(target, c)` for a one-character pad. -/
def jsPadEnd (s : List Char) (target : Nat) (c : Char) : List Char :=
  s ++ List.replicate (target - s.length) c

/-- JavaScript string indexing `s[i]` followed by appending the result to a
string: an in-range index contributes the single character, an out-of-range
index contributes the nine characters of the word undefined. -/
def jsCharAt (s : List Char) (i : Nat) : List Char :=
  match s[i]? with
  | some c => [c]
  | none => ("undefined").toList

/-- Fuel-driven worker for `natToBin`; the fuel only forces structural
recursion (so that the kernel can evaluate it) and is irrelevant once it is
at least the number being converted. -/
def natToBinGo : Nat → Nat → List Char
  | 0, n => [if n = 1 then '1' else '0']
  | fuel + 1, n =>
    if n < 2 then [if n = 1 then '1' else '0']
    else natToBinGo fuel (n / 2) ++ [if n % 2 = 1 then '1' else '0']

/-- Binary digits of a natural number, most significant first, as the
characters produced by JavaScript `Number.prototype.toString(2)`. -/
def natToBin (n : Nat) : List Char :=
  natToBinGo n n

/-- Fuel-driven worker for `natToHex`, as for `natToBinGo`. -/
def natToHexGo : Nat → Nat → List Char
  | 0, n => [if n < 10 then Char.ofNat (48 + n) else Char.ofNat (87 + n)]
  | fuel + 1, n =>
    if n < 16 then [if n < 10 then Char.ofNat (48 + n) else Char.ofNat (87 + n)]
    else natToHexGo fuel (n / 16) ++
      [if n % 16 < 10 then Char.ofNat (48 + n % 16) else Char.ofNat (87 + n % 16)]

/-- Hexadecimal digits of a natural number, lowercase, as produced by
JavaScript `Number.prototype.toString(16)`. -/
def natToHex (n : Nat) : List Char :=
  natToHexGo n n

/-- Value of a binary digit character, `none` on a non-digit. -/
def binDigitVal (c : Char) : Option Nat :=
  if c = '0' then some 0 else if c = '1' then some 1 else none

/-- Value of a hexadecimal digit character, `none` on a non-digit (stated on
code points: digits, then lowercase a to f, then uppercase A to F). -/
def hexDigitVal (c : Char) : Option Nat :=
  if 48 ≤ c.toNat ∧ c.toNat ≤ 57 then some (c.toNat - 48)
  else if 97 ≤ c.toNat ∧ c.toNat ≤ 102 then some (c.toNat - 87)
  else if 65 ≤ c.toNat ∧ c.toNat ≤ 70 then some (c.toNat - 55)
  else none

/-- JavaScript `parseInt(s, base)` on the inputs this program feeds it:
the longest prefix of digits is evaluated, and `none` models `NaN`. -/
def jsParseInt (digitVal : Char → Option Nat) (base : Nat) (s : List Char) : Option Nat :=
  let ds := s.takeWhile (fun c => (digitVal c).isSome)
  if ds.isEmpty then none
  else some (ds.foldl (fun a c => a * base + ((digitVal c).getD 0)) 0)

/-- Fuel-driven worker for `chunksOf`; the fuel only forces structural
recursion and is irrelevant once it is at least the length of the list
(each step consumes at least one element because the stride is positive). -/
def chunksOfGo (n : Nat) : Nat → List α → List (List α)
  | _, [] => []
  | 0, _ :: _ => []
  | fuel + 1, a :: l => (a :: l).take n :: chunksOfGo n fuel ((a :: l).drop n)

/-- Splitting a list into consecutive chunks of `n` elements, the way the
source loops over a string with stride `n`; the last chunk may be short.
Every call site of this development uses a positive stride. -/
def chunksOf (n : Nat) (l : List α) : List (List α) :=
  if n = 0 then [] else chunksOfGo n l.length l

/-- Value of a most-significant-first list of binary digit characters. -/
def bitsVal (l : List Char) : Nat :=
  l.foldl (fun a c => a * 2 + (if c = '1' then 1 else 0)) 0

/-- A bit string proper: every character is the digit zero or one. -/
def IsBits (l : List Char) : Prop :=
  ∀ c ∈ l, c = '0' ∨ c = '1'

instance (l : List Char) : Decidable (IsBits l) :=
  inferInstanceAs (Decidable (∀ c ∈ l, c = '0' ∨ c = '1'))

/-- Errors thrown by the source, one constructor per `throw` site, plus the
JavaScript `TypeError` raised by reading a property of `undefined`. -/
inductive DESError where
  /-- generate64BitKey: input must be exactly 8 characters long. -/
  | keyLength
  /-- generate64BitKey: only ASCII characters are allowed. -/
  | nonAscii
  /-- splitBinary: input must be a 64-bit binary string. -/
  | splitInput
  /-- e_transform: the input binary string must be 32 bits. -/
  | eInput
  /-- binaryToHex: binary string length must be a multiple of 4. -/
  | binLength
  /-- JavaScript TypeError: reading an index of `undefined`. -/
  | typeError
deriving DecidableEq

instance {ε α : Type} [DecidableEq ε] [DecidableEq α] : DecidableEq (Except ε α) :=
  fun x y =>
    match x, y with
    | .error a, .error b =>
      if h : a = b then .isTrue (by rw [h]) else .isFalse fun hc => h (Except.error.inj hc)
    | .error _, .ok _ => .isFalse fun hc => Except.noConfusion hc
    | .ok _, .error _ => .isFalse fun hc => Except.noConfusion hc
    | .ok a, .ok b =>
      if h : a = b then .isTrue (by rw [h]) else .isFalse fun hc => h (Except.ok.inj hc)

/-! ## Constant tables

Modelled from the spec: `constants.ts` is imported by the sources but is not
among the files we were given.  The spec requires the canonical DES tables
(initial permutation and its inverse, expansion, P-box, PC-1, PC-2, the
S-boxes) and pins the left-shift schedule verbatim. -/

/-- Modelled from the spec: the canonical DES initial permutation table. -/
def IP : List Nat :=
  [58, 50, 42, 34, 26, 18, 10, 2,
   60, 52, 44, 36, 28, 20, 12, 4,
   62, 54, 46, 38, 30, 22, 14, 6,
   64, 56, 48, 40, 32, 24, 16, 8,
   57, 49, 41, 33, 25, 17, 9, 1,
   59, 51, 43, 35, 27, 19, 11, 3,
   61, 53, 45, 37, 29, 21, 13, 5,
   63, 55, 47, 39, 31, 23, 15, 7]

/-- Modelled from the spec: the canonical DES inverse initial permutation. -/
def IP_INVERSE : List Nat :=
  [40, 8, 48, 16, 56, 24, 64, 32,
   39, 7, 47, 15, 55, 23, 63, 31,
   38, 6, 46, 14, 54, 22, 62, 30,
   37, 5, 45, 13, 53, 21, 61, 29,
   36, 4, 44, 12, 52, 20, 60, 28,
   35, 3, 43, 11, 51, 19, 59, 27,
   34, 2, 42, 10, 50, 18, 58, 26,
   33, 1, 41, 9, 49, 17, 57, 25]

/-- Modelled from the spec: the canonical DES expansion table (32 to 48 bits). -/
def E_SELECTION : List Nat :=
  [32, 1, 2, 3, 4, 5,
   4, 5, 6, 7, 8, 9,
   8, 9, 10, 11, 12, 13,
   12, 13, 14, 15, 16, 17,
   16, 17, 18, 19, 20, 21,
   20, 21, 22, 23, 24, 25,
   24, 25, 26, 27, 28, 29,
   28, 29, 30, 31, 32, 1]

/-- Modelled from the spec: the canonical DES P-box permutation (32 bits). -/
def P_TRANSFORM : List Nat :=
  [16, 7, 20, 21,
   29, 12, 28, 17,
   1, 15, 23, 26,
   5, 18, 31, 10,
   2, 8, 24, 14,
   32, 27, 3, 9,
   19, 13, 30, 6,
   22, 11, 4, 25]

/-- Modelled from the spec: the canonical DES PC-1 table (64 to 56 bits,
dropping the parity bits). -/
def PC_1 : List Nat :=
  [57, 49, 41, 33, 25, 17, 9,
   1, 58, 50, 42, 34, 26, 18,
   10, 2, 59, 51, 43, 35, 27,
   19, 11, 3, 60, 52, 44, 36,
   63, 55, 47, 39, 31, 23, 15,
   7, 62, 54, 46, 38, 30, 22,
   14, 6, 61, 53, 45, 37, 29,
   21, 13, 5, 28, 20, 12, 4]

/-- Modelled from the spec: the canonical DES PC-2 table (56 to 48 bits). -/
def PC_2 : List Nat :=
  [14, 17, 11, 24, 1, 5,
   3, 28, 15, 6, 21, 10,
   23, 19, 12, 4, 26, 8,
   16, 7, 27, 20, 13, 2,
   41, 52, 31, 37, 47, 55,
   30, 40, 51, 45, 33, 48,
   44, 49, 39, 56, 34, 53,
   46, 42, 50, 36, 29, 32]

/-- Modelled from the spec: the per-round left-shift schedule, pinned by the
spec as 1,1,2,2,2,2,2,2,1,2,2,2,2,2,2,1. -/
def KEY_SHIFT : List Nat :=
  [1, 1, 2, 2, 2, 2, 2, 2, 1, 2, 2, 2, 2, 2, 2, 1]

/-- Modelled from the spec: the canonical DES S-boxes, eight 4-by-16 tables. -/
def S_BOX : List (List (List Nat)) :=
  [[[14, 4, 13, 1, 2, 15, 11, 8, 3, 10, 6, 12, 5, 9, 0, 7],
    [0, 15, 7, 4, 14, 2, 13, 1, 10, 6, 12, 11, 9, 5, 3, 8],
    [4, 1, 14, 8, 13, 6, 2, 11, 15, 12, 9, 7, 3, 10, 5, 0],
    [15, 12, 8, 2, 4, 9, 1, 7, 5, 11, 3, 14, 10, 0, 6, 13]],
   [[15, 1, 8, 14, 6, 11, 3, 4, 9, 7, 2, 13, 12, 0, 5, 10],
    [3, 13, 4, 7, 15, 2, 8, 14, 12, 0, 1, 10, 6, 9, 11, 5],
    [0, 14, 7, 11, 10, 4, 13, 1, 5, 8, 12, 6, 9, 3, 2, 15],
    [13, 8, 10, 1, 3, 15, 4, 2, 11, 6, 7, 12, 0, 5, 14, 9]],
   [[10, 0, 9, 14, 6, 3, 15, 5, 1, 13, 12, 7, 11, 4, 2, 8],
    [13, 7, 0, 9, 3, 4, 6, 10, 2, 8, 5, 14, 12, 11, 15, 1],
    [13, 6, 4, 9, 8, 15, 3, 0, 11, 1, 2, 12, 5, 10, 14, 7],
    [1, 10, 13, 0, 6, 9, 8, 7, 4, 15, 14, 3, 11, 5, 2, 12]],
   [[7, 13, 14, 3, 0, 6, 9, 10, 1, 2, 8, 5, 11, 12, 4, 15],
    [13, 8, 11, 5, 6, 15, 0, 3, 4, 7, 2, 12, 1, 10, 14, 9],
    [10, 6, 9, 0, 12, 11, 7, 13, 15, 1, 3, 14, 5, 2, 8, 4],
    [3, 15, 0, 6, 10, 1, 13, 8, 9, 4, 5, 11, 12, 7, 2, 14]],
   [[2, 12, 4, 1, 7, 10, 11, 6, 8, 5, 3, 15, 13, 0, 14, 9],
    [14, 11, 2, 12, 4, 7, 13, 1, 5, 0, 15, 10, 3, 9, 8, 6],
    [4, 2, 1, 11, 10, 13, 7, 8, 15, 9, 12, 5, 6, 3, 0, 14],
    [11, 8, 12, 7, 1, 14, 2, 13, 6, 15, 0, 9, 10, 4, 5, 3]],
   [[12, 1, 10, 15, 9, 2, 6, 8, 0, 13, 3, 4, 14, 7, 5, 11],
    [10, 15, 4, 2, 7, 12, 9, 5, 6, 1, 13, 14, 0, 11, 3, 8],
    [9, 14, 15, 5, 2, 8, 12, 3, 7, 0, 4, 10, 1, 13, 11, 6],
    [4, 3, 2, 12, 9, 5, 15, 10, 11, 14, 1, 7, 6, 0, 8, 13]],
   [[4, 11, 2, 14, 15, 0, 8, 13, 3, 12, 9, 7, 5, 10, 6, 1],
    [13, 0, 11, 7, 4, 9, 1, 10, 14, 3, 5, 12, 2, 15, 8, 6],
    [1, 4, 11, 13, 12, 3, 7, 14, 10, 15, 6, 8, 0, 5, 9, 2],
    [6, 11, 13, 8, 1, 4, 10, 7, 9, 5, 0, 15, 14, 2, 3, 12]],
   [[13, 2, 8, 4, 6, 15, 11, 1, 10, 9, 3, 14, 5, 0, 12, 7],
    [1, 15, 13, 8, 10, 3, 7, 4, 12, 5, 6, 11, 0, 14, 9, 2],
    [7, 11, 4, 1, 9, 12, 14, 2, 0, 6, 10, 13, 15, 3, 5, 8],
    [2, 1, 14, 7, 4, 10, 8, 13, 15, 12, 9, 0, 3, 5, 6, 11]]]

/-! ## Embedding of `src/utils/key.ts` -/

/-- Embeds `calculateParityBit` of `key.ts`: the parity bit making the total
count of ones in the 8-bit result odd. -/
def calculateParityBit (sevenBits : List Char) : Char :=
  let countOfOnes := (sevenBits.filter (fun bit => bit = '1')).length
  if countOfOnes % 2 = 0 then '1' else '0'

/-- The per-character body of the loop in `generate64BitKey` of `key.ts`:
the last 7 bits of the 8-bit-padded binary code of the character, followed
by its parity bit. -/
def charKeyBits (c : Char) : List Char :=
  let padded := jsPadStart (natToBin c.toNat) 8 '0'
  let sevenBits := padded.drop (padded.length - 7)
  sevenBits ++ [calculateParityBit sevenBits]

/-- Embeds `generate64BitKey` of `key.ts`. -/
def generate64BitKey (input : List Char) : Except DESError (List Char) :=
  if input.length ≠ 8 then .error .keyLength
  else do
    let groups ← input.mapM (fun c =>
      if c.toNat > 127 then Except.error DESError.nonAscii
      else Except.ok (charKeyBits c))
    pure groups.flatten

/-- Embeds `xorBinaryKeys` of `key.ts`: character-wise comparison over the
length of the first key. -/
def xorBinaryKeys (key1 key2 : List Char) : List Char :=
  (List.range key1.length).map (fun i => if key1[i]? = key2[i]? then '0' else '1')

/-- Embeds `processKey` of `key.ts`.  An empty input produces an empty chunk
list, and `keys[0]` is then the JavaScript value `undefined`, modelled by
`none`; the caller crashes on it. -/
def processKey (input : List Char) : Except DESError (Option (List Char)) := do
  let paddedInput := jsPadEnd input (((input.length + 7) / 8) * 8) '0'
  let keys ← (chunksOf 8 paddedInput).mapM generate64BitKey
  match keys with
  | [] => pure none
  | k :: ks => pure (some (ks.foldl xorBinaryKeys k))

/-- Embeds `rangeBits` of `key.ts`.  Every call site passes the length of the
permutation table as `arrayLength`.  Out-of-range source positions read
`undefined` and append the word undefined, as in JavaScript. -/
def rangeBits (binaryString : List Char) (permutationArray : List Nat)
    (arrayLength : Nat) : List Char :=
  ((permutationArray.take arrayLength).map (fun p => jsCharAt binaryString (p - 1))).flatten

/-- Embeds `leftShift` of `key.ts`: circular left shift. -/
def leftShift (binaryString : List Char) (shiftCount : Nat) : List Char :=
  binaryString.drop shiftCount ++ binaryString.take shiftCount

/-- Embeds `generateSubKeys` of `key.ts`: 16 subkeys from the 56-bit key,
the loop over `KEY_SHIFT` carrying the two shifted halves. -/
def generateSubKeys (key56bit : List Char) : List (List Char) :=
  (KEY_SHIFT.foldl
    (fun (st : (List Char × List Char) × List (List Char)) shift =>
      let left28bit := leftShift st.1.1 shift
      let right28bit := leftShift st.1.2 shift
      let combinedKey := left28bit ++ right28bit
      ((left28bit, right28bit), st.2 ++ [rangeBits combinedKey PC_2 48]))
    ((key56bit.take 28, (key56bit.drop 28).take 28), [])).2

/-- Embeds `outPutKeys` of `key.ts`.  On an empty key `processKey` hands back
`undefined`, and `rangeBits` then reads an index of `undefined`: a TypeError. -/
def outPutKeys (input : List Char) : Except DESError (List (List Char)) := do
  let final64BitKey ← processKey input
  match final64BitKey with
  | none => .error .typeError
  | some k =>
    let afterPC1 := rangeBits k PC_1 56
    pure (generateSubKeys afterPC1)

/-- Embeds `getOutPutKeys` of `key.ts`. -/
def getOutPutKeys (key : List Char) : Except DESError (List (List Char)) :=
  outPutKeys key

/-! ## UTF-8 codec

`stringToBinary` uses the JavaScript `TextEncoder` (standard UTF-8 of the
scalar values) and `binaryToString` uses `TextDecoder` with default options,
which never throws: malformed sequences decode to U+FFFD replacement
characters, one per offending byte or truncated sequence, with the
offending byte reconsidered (the WHATWG decoder). -/

/-- The U+FFFD replacement character emitted by `TextDecoder` on error. -/
def replChar : Char := Char.ofNat 0xFFFD

/-- Standard UTF-8 encoding of one unicode scalar value, the per-character
action of the JavaScript `TextEncoder`. -/
def utf8EncodeChar (c : Char) : List Nat :=
  let n := c.toNat
  if n < 0x80 then [n]
  else if n < 0x800 then [0xC0 + n / 64, 0x80 + n % 64]
  else if n < 0x10000 then [0xE0 + n / 4096, 0x80 + (n / 64) % 64, 0x80 + n % 64]
  else [0xF0 + n / 262144, 0x80 + (n / 4096) % 64, 0x80 + (n / 64) % 64, 0x80 + n % 64]

/-- The JavaScript `TextEncoder` on a whole string. -/
def utf8Encode (s : List Char) : List Nat :=
  (s.map utf8EncodeChar).flatten

/-- The JavaScript `TextDecoder` with default options: the WHATWG UTF-8
decoder in replacement mode.  On a malformed sequence it emits U+FFFD and
resumes at the first unconsumed byte. -/
def utf8Decode : List Nat → List Char
  | [] => []
  | b :: rest =>
    if b ≤ 0x7F then Char.ofNat b :: utf8Decode rest
    else if b < 0xC2 then replChar :: utf8Decode rest
    else if b ≤ 0xDF then
      match rest with
      | [] => [replChar]
      | b1 :: rest1 =>
        if 0x80 ≤ b1 ∧ b1 ≤ 0xBF then
          Char.ofNat ((b - 0xC0) * 64 + (b1 - 0x80)) :: utf8Decode rest1
        else replChar :: utf8Decode (b1 :: rest1)
    else if b ≤ 0xEF then
      match rest with
      | [] => [replChar]
      | b1 :: rest1 =>
        if (if b = 0xE0 then 0xA0 else 0x80) ≤ b1 ∧
            b1 ≤ (if b = 0xED then 0x9F else 0xBF) then
          match rest1 with
          | [] => [replChar]
          | b2 :: rest2 =>
            if 0x80 ≤ b2 ∧ b2 ≤ 0xBF then
              Char.ofNat ((b - 0xE0) * 4096 + (b1 - 0x80) * 64 + (b2 - 0x80)) ::
                utf8Decode rest2
            else replChar :: utf8Decode (b2 :: rest2)
        else replChar :: utf8Decode (b1 :: rest1)
    else if b ≤ 0xF4 then
      match rest with
      | [] => [replChar]
      | b1 :: rest1 =>
        if (if b = 0xF0 then 0x90 else 0x80) ≤ b1 ∧
            b1 ≤ (if b = 0xF4 then 0x8F else 0xBF) then
          match rest1 with
          | [] => [replChar]
          | b2 :: rest2 =>
            if 0x80 ≤ b2 ∧ b2 ≤ 0xBF then
              match rest2 with
              | [] => [replChar]
              | b3 :: rest3 =>
                if 0x80 ≤ b3 ∧ b3 ≤ 0xBF then
                  Char.ofNat ((b - 0xF0) * 262144 + (b1 - 0x80) * 4096 +
                      (b2 - 0x80) * 64 + (b3 - 0x80)) :: utf8Decode rest3
                else replChar :: utf8Decode (b3 :: rest3)
            else replChar :: utf8Decode (b2 :: rest2)
        else replChar :: utf8Decode (b1 :: rest1)
    else replChar :: utf8Decode rest

/-- A byte sequence is well-formed UTF-8.  This checker mirrors the WHATWG
grammar: it is the reference notion of validity the spec appeals to when it
speaks of bits that do not form valid UTF-8. -/
def utf8Valid : List Nat → Bool
  | [] => true
  | b :: rest =>
    if b ≤ 0x7F then utf8Valid rest
    else if 0xC2 ≤ b ∧ b ≤ 0xDF then
      match rest with
      | [] => false
      | b1 :: rest1 =>
        if 0x80 ≤ b1 ∧ b1 ≤ 0xBF then utf8Valid rest1 else false
    else if 0xE0 ≤ b ∧ b ≤ 0xEF then
      match rest with
      | [] => false
      | b1 :: rest1 =>
        if (if b = 0xE0 then 0xA0 else 0x80) ≤ b1 ∧
            b1 ≤ (if b = 0xED then 0x9F else 0xBF) then
          match rest1 with
          | [] => false
          | b2 :: rest2 =>
            if 0x80 ≤ b2 ∧ b2 ≤ 0xBF then utf8Valid rest2 else false
        else false
    else if 0xF0 ≤ b ∧ b ≤ 0xF4 then
      match rest with
      | [] => false
      | b1 :: rest1 =>
        if (if b = 0xF0 then 0x90 else 0x80) ≤ b1 ∧
            b1 ≤ (if b = 0xF4 then 0x8F else 0xBF) then
          match rest1 with
          | [] => false
          | b2 :: rest2 =>
            if 0x80 ≤ b2 ∧ b2 ≤ 0xBF then
              match rest2 with
              | [] => false
              | b3 :: rest3 =>
                if 0x80 ≤ b3 ∧ b3 ≤ 0xBF then utf8Valid rest3 else false
            else false
        else false
    else false

/-! ## Embedding of `src/utils/des.ts` -/

/-- Embeds `binaryToHex` of `des.ts`: groups of 4 binary digits to one hex
digit each, uppercased at the end.  A group that is not binary would give
`NaN` under `parseInt`, and the source would append the text NaN. -/
def binaryToHex (binary : List Char) : Except DESError (List Char) :=
  if binary.length % 4 ≠ 0 then .error .binLength
  else .ok ((((chunksOf 4 binary).map (fun fourBits =>
    match jsParseInt binDigitVal 2 fourBits with
    | none => ("NaN").toList
    | some v => natToHex v)).flatten).map Char.toUpper)

/-- Embeds `hexToBinary` of `des.ts`: each character through `parseInt(c, 16)`
then `toString(2).padStart(4)`.  There is no validation: a non-hex character
gives `NaN`, whose text padded to 4 characters is the digit zero followed by
the three characters of NaN. -/
def hexToBinary (hex : List Char) : List Char :=
  (hex.map (fun c =>
    match jsParseInt hexDigitVal 16 [c] with
    | none => jsPadStart (("NaN").toList) 4 '0'
    | some v => jsPadStart (natToBin v) 4 '0')).flatten

/-- Embeds `stringToBinary` of `des.ts`: UTF-8 bytes, 8 binary digits per
byte, right-padded with the digit zero to a multiple of 64. -/
def stringToBinary (input : String) : List Char :=
  let binaryString := ((utf8Encode input.data).map
    (fun b => jsPadStart (natToBin b) 8 '0')).flatten
  jsPadEnd binaryString (((binaryString.length + 63) / 64) * 64) '0'

/-- The byte list built inside `binaryToString` of `des.ts`: `parseInt` of
each 8-digit group (`NaN` coerces to 0 inside `Uint8Array`, larger values
are truncated modulo 256). -/
def binaryToBytes (binary : List Char) : List Nat :=
  (chunksOf 8 binary).map (fun byte => ((jsParseInt binDigitVal 2 byte).getD 0) % 256)

/-- Embeds `binaryToString` of `des.ts`: regroup into bytes and decode with
`TextDecoder` (never throws; replacement characters on malformed input). -/
def binaryToString (binary : List Char) : List Char :=
  utf8Decode (binaryToBytes binary)

/-- Embeds `splitBinary` of `des.ts`. -/
def splitBinary (input : List Char) : Except DESError (List Char × List Char) :=
  if input.length ≠ 64 then .error .splitInput
  else .ok (input.take 32, input.drop 32)

/-- The body of `e_transform` of `des.ts` without its length guard: expansion
through the `E_SELECTION` table. -/
def ePure (input : List Char) : List Char :=
  (E_SELECTION.map (fun p => jsCharAt input (p - 1))).flatten

/-- Embeds `e_transform` of `des.ts`. -/
def e_transform (input : List Char) : Except DESError (List Char) :=
  if input.length ≠ 32 then .error .eInput
  else .ok (ePure input)

/-- Embeds `xorBinaryStrings` of `des.ts`: character comparison over the
given length (out-of-range reads are `undefined` and compare accordingly). -/
def xorBinaryStrings (binaryString1 binaryString2 : List Char) (length : Nat) : List Char :=
  (List.range length).map
    (fun i => if binaryString1[i]? = binaryString2[i]? then '0' else '1')

/-- Embeds `decimalToBinary` of `des.ts`. -/
def decimalToBinary (num : Nat) (length : Nat) : List Char :=
  jsPadStart (natToBin num) length '0'

/-- Embeds `swapStrings` of `des.ts` on a pair. -/
def swapStrings (arr : List Char × List Char) : List Char × List Char :=
  (arr.2, arr.1)

/-- Embeds `sBoxTransform` of `des.ts`.  The row is the outer two bits, the
column the middle four, of each 6-bit group.  If a group failed to parse the
source would look up an `undefined` row and crash with a TypeError; the
`getD` defaults are unreachable because a parsed row is below 4 and a parsed
column below 16, within the 4-by-16 tables. -/
def sBoxTransform (input48bit : List Char) : Except DESError (List Char) := do
  let nibbles ← (List.range 8).mapM (fun i => do
    let sixBits := (input48bit.drop (i * 6)).take 6
    match jsParseInt binDigitVal 2 (sixBits.take 1 ++ sixBits.drop 5),
        jsParseInt binDigitVal 2 ((sixBits.drop 1).take 4) with
    | some row, some column =>
      pure (decimalToBinary (((S_BOX.getD i []).getD row []).getD column 0) 4)
    | _, _ => Except.error DESError.typeError)
  pure nibbles.flatten

/-- The body of one round of the 16-round loops in `createDESCipherText` and
`createDESPlainText` of `des.ts` (both loops have the identical body). -/
def feistelRound (splitArray : List Char × List Char) (key : List Char) :
    Except DESError (List Char × List Char) := do
  let temp := splitArray.2
  let e ← e_transform splitArray.2
  let xorResult := xorBinaryStrings e key 48
  let sBoxResult ← sBoxTransform xorResult
  let p := rangeBits sBoxResult P_TRANSFORM 32
  let toLeft := xorBinaryStrings splitArray.1 p 32
  pure (temp, toLeft)

/-- The per-block processing shared by `createDESCipherText` (keys in index
order 0..15) and `createDESPlainText` (keys in index order 15..0, passed here
already reversed): initial permutation, split, 16 rounds, final swap,
inverse initial permutation. -/
def desBlock (keyArray : List (List Char)) (block : List Char) :
    Except DESError (List Char) := do
  let afterIP := rangeBits block IP 64
  let splitArray ← splitBinary afterIP
  let final ← keyArray.foldlM feistelRound splitArray
  let swapped := swapStrings final
  pure (rangeBits (swapped.1 ++ swapped.2) IP_INVERSE 64)

/-- Embeds `createDESCipherText` of `des.ts`: derive the key schedule, pad the
text to 64-bit blocks, encrypt each block with round keys 0..15, hex-encode. -/
def createDESCipherText (input : String) (key : List Char) :
    Except DESError (List Char) := do
  let keyArray ← getOutPutKeys key
  let textBinary := stringToBinary input
  let blocks := (chunksOf 64 textBinary).map (fun b => jsPadEnd b 64 '0')
  let outs ← blocks.mapM (desBlock keyArray)
  binaryToHex outs.flatten

/-- The bit stream accumulated by `createDESPlainText` of `des.ts` before its
final `binaryToString`: hex to binary (unvalidated), each 64-bit block through
the rounds with keys 15..0.  Unlike encryption, blocks are not re-padded. -/
def createDESPlainBits (input : List Char) (key : List Char) :
    Except DESError (List Char) := do
  let keyArray ← getOutPutKeys key
  let binaryInput := hexToBinary input
  let blocks := chunksOf 64 binaryInput
  let outs ← blocks.mapM (desBlock keyArray.reverse)
  pure outs.flatten

/-- Embeds `createDESPlainText` of `des.ts`. -/
def createDESPlainText (input : List Char) (key : List Char) :
    Except DESError (List Char) :=
  (createDESPlainBits input key).map binaryToString

/-- The byte sequence recovered by decryption, immediately before the
`TextDecoder` call inside `binaryToString`. -/
def desRecoveredBytes (input : List Char) (key : List Char) :
    Except DESError (List Nat) :=
  (createDESPlainBits input key).map binaryToBytes

/-- Embeds `getDESCipherText` of `des.ts`, the public encryption entry. -/
def getDESCipherText (input : String) (key : String) : Except DESError String :=
  (createDESCipherText input key.data).map (fun l => String.mk l)

/-- Embeds `getDESPlainText` of `des.ts`, the public decryption entry. -/
def getDESPlainText (input : String) (key : String) : Except DESError String :=
  (createDESPlainText input.data key.data).map (fun l => String.mk l)

/-! ## Specification-side definitions

These restate, in the spec's own vocabulary, the Feistel round and per-block
pipeline; the correspondence theorems below relate them to the embedding. -/

/-- S-box substitution as a total function on bit strings (the spec's view:
row from the outer bit pair, column from the middle four bits). -/
def sBoxPure (input48bit : List Char) : List Char :=
  ((List.range 8).map (fun i =>
    let sixBits := (input48bit.drop (i * 6)).take 6
    let row := bitsVal (sixBits.take 1 ++ sixBits.drop 5)
    let column := bitsVal ((sixBits.drop 1).take 4)
    decimalToBinary (((S_BOX.getD i []).getD row []).getD column 0) 4)).flatten

/-- The Feistel cipher function of the spec: P-box of S-box of
(expansion XOR round key). -/
def fFunction (key : List Char) (r : List Char) : List Char :=
  rangeBits (sBoxPure (xorBinaryStrings (ePure r) key 48)) P_TRANSFORM 32

/-- The spec's Feistel round: (L, R) with round key K maps to
(R, L XOR f(K, R)). -/
def desRound (key : List Char) (st : List Char × List Char) :
    List Char × List Char :=
  (st.2, xorBinaryStrings st.1 (fFunction key st.2) 32)

/-- The spec's per-block pipeline: initial permutation, split, fold the
rounds over the key list in the order given, final swap, inverse initial
permutation of the concatenation. -/
def desBlockSpec (keys : List (List Char)) (block : List Char) : List Char :=
  let afterIP := rangeBits block IP 64
  let final := keys.foldl (fun st k => desRound k st) (afterIP.take 32, afterIP.drop 32)
  rangeBits (final.2 ++ final.1) IP_INVERSE 64

/-- Uppercase hexadecimal digits, for stating the output alphabet of
`binaryToHex`. -/
def uppercaseHexDigits : List Char := ("0123456789ABCDEF").toList

/-- The characters accepted as hexadecimal digits by `parseInt(c, 16)`, for
stating well-formedness of a ciphertext. -/
def hexDigitChars : List Char := ("0123456789abcdefABCDEF").toList

/-! ## Basic lemmas about the helpers -/

theorem natToBinGo_fuel (fuel fuel2 n : Nat) (h : n ≤ fuel) (h2 : n ≤ fuel2) :
    natToBinGo fuel n = natToBinGo fuel2 n := by
  induction fuel generalizing fuel2 n with
  | zero =>
    have hn : n = 0 := by omega
    subst hn
    cases fuel2 <;> simp [natToBinGo]
  | succ f ih =>
    cases fuel2 with
    | zero =>
      have hn : n = 0 := by omega
      subst hn
      simp [natToBinGo]
    | succ g =>
      by_cases h3 : n < 2
      · simp [natToBinGo, h3]
      · simp only [natToBinGo, if_neg h3]
        rw [ih g (n / 2) (by omega) (by omega)]

theorem natToBin_eq (n : Nat) :
    natToBin n = if n < 2 then [if n = 1 then '1' else '0']
      else natToBin (n / 2) ++ [if n % 2 = 1 then '1' else '0'] := by
  by_cases h : n < 2
  · interval_cases n <;> simp [natToBin, natToBinGo]
  · obtain ⟨f, rfl⟩ : ∃ f, n = f + 1 := ⟨n - 1, by omega⟩
    rw [if_neg h]
    show natToBinGo (f + 1) (f + 1) = _
    simp only [natToBinGo, if_neg h]
    congr 1
    exact natToBinGo_fuel f ((f + 1) / 2) ((f + 1) / 2) (by omega) (by omega)

theorem natToHexGo_fuel (fuel fuel2 n : Nat) (h : n ≤ fuel) (h2 : n ≤ fuel2) :
    natToHexGo fuel n = natToHexGo fuel2 n := by
  induction fuel generalizing fuel2 n with
  | zero =>
    have hn : n = 0 := by omega
    subst hn
    cases fuel2 <;> simp [natToHexGo]
  | succ f ih =>
    cases fuel2 with
    | zero =>
      have hn : n = 0 := by omega
      subst hn
      simp [natToHexGo]
    | succ g =>
      by_cases h3 : n < 16
      · simp [natToHexGo, h3]
      · simp only [natToHexGo, if_neg h3]
        rw [ih g (n / 16) (by omega) (by omega)]

theorem natToHex_eq (n : Nat) :
    natToHex n = if n < 16 then [if n < 10 then Char.ofNat (48 + n) else Char.ofNat (87 + n)]
      else natToHex (n / 16) ++
        [if n % 16 < 10 then Char.ofNat (48 + n % 16) else Char.ofNat (87 + n % 16)] := by
  by_cases h : n < 16
  · rw [if_pos h]
    interval_cases n <;> simp [natToHex, natToHexGo]
  · obtain ⟨f, rfl⟩ : ∃ f, n = f + 1 := ⟨n - 1, by omega⟩
    rw [if_neg h]
    show natToHexGo (f + 1) (f + 1) = _
    simp only [natToHexGo, if_neg h]
    congr 1
    exact natToHexGo_fuel f ((f + 1) / 16) ((f + 1) / 16) (by omega) (by omega)

theorem chunksOfGo_fuel (n fuel fuel2 : Nat) (l : List α) (hn : 0 < n)
    (h : l.length ≤ fuel) (h2 : l.length ≤ fuel2) :
    chunksOfGo n fuel l = chunksOfGo n fuel2 l := by
  induction fuel generalizing fuel2 l with
  | zero =>
    have hl : l = [] := by
      cases l with
      | nil => rfl
      | cons a t => simp at h
    subst hl
    cases fuel2 <;> simp [chunksOfGo]
  | succ f ih =>
    cases l with
    | nil => cases fuel2 <;> simp [chunksOfGo]
    | cons a t =>
      cases fuel2 with
      | zero => simp at h2
      | succ g =>
        simp only [List.length_cons] at h h2
        simp only [chunksOfGo]
        congr 1
        exact ih _ ((a :: t).drop n)
          (by simp [List.length_drop, List.length_cons]; omega)
          (by simp [List.length_drop, List.length_cons]; omega)

theorem chunksOf_nil (n : Nat) : chunksOf n ([] : List α) = [] := by
  by_cases h : n = 0 <;> simp [chunksOf, chunksOfGo, h]

theorem chunksOf_cons (n : Nat) (hn : 0 < n) (a : α) (l : List α) :
    chunksOf n (a :: l) = (a :: l).take n :: chunksOf n ((a :: l).drop n) := by
  simp only [chunksOf, if_neg (Nat.pos_iff_ne_zero.mp hn)]
  show chunksOfGo n (l.length + 1) (a :: l) = _
  simp only [chunksOfGo]
  congr 1
  exact chunksOfGo_fuel n l.length ((a :: l).drop n).length ((a :: l).drop n) hn
    (by simp [List.length_drop]; omega) (by omega)

theorem bitsVal_append (l1 l2 : List Char) :
    bitsVal (l1 ++ l2) =
      bitsVal l1 * 2 ^ l2.length + bitsVal l2 := by
  induction l2 using List.reverseRecOn with
  | nil => simp [bitsVal]
  | append_singleton t c ih =>
    rw [← List.append_assoc]
    simp only [bitsVal, List.foldl_append, List.foldl_cons, List.foldl_nil] at ih ⊢
    rw [ih]
    simp only [List.length_append, List.length_cons, List.length_nil, pow_succ, pow_zero]
    ring

theorem natToBin_isBits (n : Nat) : IsBits (natToBin n) := by
  induction n using Nat.strong_induction_on with
  | _ n ih =>
    rw [natToBin_eq]
    by_cases h : n < 2
    · rw [if_pos h]
      intro c hc
      rw [List.mem_singleton] at hc
      subst hc
      by_cases h1 : n = 1 <;> simp [h1]
    · rw [if_neg h]
      intro c hc
      rcases List.mem_append.mp hc with h2 | h2
      · exact ih (n / 2) (by omega) c h2
      · rw [List.mem_singleton] at h2
        subst h2
        by_cases h3 : n % 2 = 1 <;> simp [h3]

theorem natToBin_ne_nil (n : Nat) : natToBin n ≠ [] := by
  rw [natToBin_eq]
  by_cases h : n < 2 <;> simp [h]

theorem bitsVal_natToBin (n : Nat) : bitsVal (natToBin n) = n := by
  induction n using Nat.strong_induction_on with
  | _ n ih =>
    rw [natToBin_eq]
    by_cases h : n < 2
    · rw [if_pos h]
      interval_cases n <;> simp [bitsVal]
    · rw [if_neg h]
      rw [bitsVal_append, ih (n / 2) (by omega)]
      by_cases h3 : n % 2 = 1 <;> simp [bitsVal, h3] <;> omega

theorem natToBin_length_le (n k : Nat) (hk : 0 < k) (h : n < 2 ^ k) :
    (natToBin n).length ≤ k := by
  induction k generalizing n with
  | zero => omega
  | succ k ih =>
    rw [natToBin_eq]
    by_cases h2 : n < 2
    · rw [if_pos h2]
      simp only [List.length_singleton]
      omega
    · rw [if_neg h2]
      have hk2 : 0 < k := by
        by_contra h3
        have : k = 0 := by omega
        subst this
        simp at h
        omega
      have := ih (n / 2) hk2 (by omega)
      simp [List.length_append]
      omega

theorem bitsVal_cons (c : Char) (t : List Char) :
    bitsVal (c :: t) = (if c = '1' then 1 else 0) * 2 ^ t.length + bitsVal t := by
  have h := bitsVal_append [c] t
  simpa [bitsVal] using h

theorem bitsVal_singleton (c : Char) : bitsVal [c] = if c = '1' then 1 else 0 := by
  simp [bitsVal]

theorem bitsVal_lt (l : List Char) : bitsVal l < 2 ^ l.length := by
  induction l using List.reverseRecOn with
  | nil => simp [bitsVal]
  | append_singleton t c ih =>
    rw [bitsVal_append, bitsVal_singleton]
    simp only [List.length_append, List.length_singleton, pow_succ, pow_one]
    by_cases h : c = '1' <;> simp [h] <;> omega

theorem bitsVal_replicate_zero (m : Nat) : bitsVal (List.replicate m '0') = 0 := by
  induction m with
  | zero => simp [bitsVal]
  | succ k ih =>
    rw [List.replicate_succ, bitsVal_cons, ih]
    simp

theorem bitsVal_eq_zero (l : List Char) (h : IsBits l) (h0 : bitsVal l = 0) :
    l = List.replicate l.length '0' := by
  induction l with
  | nil => simp
  | cons c t ih =>
    rw [bitsVal_cons] at h0
    rcases h c (List.mem_cons_self c t) with hc | hc
    · subst hc
      simp only [List.length_cons, List.replicate_succ, List.cons.injEq, true_and]
      refine ih (fun d hd => h d (List.mem_cons_of_mem _ hd)) ?_
      simpa using h0
    · subst hc
      simp only [if_true, reduceIte, one_mul] at h0
      have hp := pow_pos (show (0 : Nat) < 2 by norm_num) t.length
      omega

theorem foldl_binDigitVal (l : List Char) (h : IsBits l) (a : Nat) :
    l.foldl (fun a c => a * 2 + ((binDigitVal c).getD 0)) a =
      l.foldl (fun a c => a * 2 + (if c = '1' then 1 else 0)) a := by
  induction l generalizing a with
  | nil => rfl
  | cons c t ih =>
    simp only [List.foldl_cons]
    rw [ih (fun d hd => h d (List.mem_cons_of_mem _ hd))]
    rcases h c (List.mem_cons_self c t) with hc | hc <;> subst hc <;> rfl

theorem takeWhile_binDigit (l : List Char) (h : IsBits l) :
    l.takeWhile (fun c => (binDigitVal c).isSome) = l := by
  induction l with
  | nil => rfl
  | cons c t ih =>
    have hsome : (binDigitVal c).isSome = true := by
      rcases h c (List.mem_cons_self c t) with h1 | h1 <;> subst h1 <;> rfl
    rw [List.takeWhile_cons]
    simp only [hsome, if_true]
    rw [ih (fun d hd => h d (List.mem_cons_of_mem _ hd))]

theorem jsParseInt_bits (l : List Char) (h : IsBits l) (hne : l ≠ []) :
    jsParseInt binDigitVal 2 l = some (bitsVal l) := by
  simp only [jsParseInt, takeWhile_binDigit l h]
  rw [if_neg (by simpa [List.isEmpty_iff] using hne)]
  rw [foldl_binDigitVal l h 0]
  rfl

theorem length_jsPadStart (l : List Char) (k : Nat) (c : Char) :
    (jsPadStart l k c).length = max k l.length := by
  simp [jsPadStart, List.length_append, List.length_replicate]
  omega

theorem isBits_jsPadStart (l : List Char) (k : Nat) (h : IsBits l) :
    IsBits (jsPadStart l k '0') := by
  intro c hc
  rcases List.mem_append.mp hc with h2 | h2
  · left
    exact (List.eq_of_mem_replicate h2)
  · exact h c h2

theorem bitsVal_jsPadStart (l : List Char) (k : Nat) :
    bitsVal (jsPadStart l k '0') = bitsVal l := by
  simp [jsPadStart, bitsVal_append, bitsVal_replicate_zero]

theorem pad_natToBin_bitsVal (l : List Char) (h : IsBits l) (hne : l ≠ []) :
    jsPadStart (natToBin (bitsVal l)) l.length '0' = l := by
  induction l using List.reverseRecOn with
  | nil => exact absurd rfl hne
  | append_singleton t c ih =>
    have ht : IsBits t := fun d hd => h d (List.mem_append_left _ hd)
    have hc : c = '0' ∨ c = '1' := h c (List.mem_append_right _ (List.mem_singleton_self c))
    rw [bitsVal_append, bitsVal_singleton]
    simp only [List.length_append, List.length_singleton, pow_one]
    by_cases hsmall : bitsVal t * 2 + (if c = '1' then 1 else 0) < 2
    · have hv0 : bitsVal t = 0 := by
        rcases hc with h1 | h1 <;> subst h1 <;> simp at hsmall <;> omega
      have ht0 : t = List.replicate t.length '0' := bitsVal_eq_zero t ht hv0
      have hnb : natToBin (bitsVal t * 2 + (if c = '1' then 1 else 0)) = [c] := by
        rw [natToBin_eq, if_pos hsmall]
        rcases hc with h1 | h1 <;> subst h1 <;> simp [hv0]
      rw [hnb]
      simp only [jsPadStart, List.length_singleton, Nat.add_sub_cancel]
      rw [← ht0]
    · have hv1 : 1 ≤ bitsVal t := by
        rcases hc with h1 | h1 <;> subst h1 <;> simp at hsmall <;> omega
      have htne : t ≠ [] := by
        intro hx
        rw [hx] at hv1
        simp [bitsVal] at hv1
      have hnb : natToBin (bitsVal t * 2 + (if c = '1' then 1 else 0)) =
          natToBin (bitsVal t) ++ [c] := by
        rw [natToBin_eq, if_neg hsmall]
        have hb1 : (if c = '1' then 1 else 0 : Nat) ≤ 1 := by
          rcases hc with h1 | h1 <;> subst h1 <;> simp
        have hdiv : (bitsVal t * 2 + (if c = '1' then 1 else 0)) / 2 = bitsVal t := by omega
        have hmod : (bitsVal t * 2 + (if c = '1' then 1 else 0)) % 2 =
            (if c = '1' then 1 else 0) := by omega
        rw [hdiv, hmod]
        rcases hc with h1 | h1 <;> subst h1 <;> simp
      rw [hnb]
      have hlen : (natToBin (bitsVal t)).length ≤ t.length := by
        refine natToBin_length_le (bitsVal t) t.length ?_ (bitsVal_lt t)
        rcases t with _ | _
        · exact absurd rfl htne
        · simp
      simp only [jsPadStart, List.length_append, List.length_singleton]
      have harr : t.length + 1 - ((natToBin (bitsVal t)).length + 1) =
          t.length - (natToBin (bitsVal t)).length := by omega
      rw [harr, ← List.append_assoc]
      have hih := ih ht htne
      simp only [jsPadStart] at hih
      rw [hih]

theorem flatten_map_singleton {α β : Type} (L : List α) (f : α → List β) (g : α → β)
    (h : ∀ x ∈ L, f x = [g x]) : (L.map f).flatten = L.map g := by
  induction L with
  | nil => rfl
  | cons x t ih =>
    simp only [List.map_cons, List.flatten_cons, h x (List.mem_cons_self x t)]
    rw [ih (fun y hy => h y (List.mem_cons_of_mem _ hy))]
    rfl

theorem jsCharAt_of_lt (s : List Char) (i : Nat) (h : i < s.length) :
    jsCharAt s i = [s.getD i '0'] := by
  simp [jsCharAt, List.getElem?_eq_getElem h, List.getD_eq_getElem s '0' h]

theorem rangeBits_eq_map (l : List Char) (T : List Nat) (n : Nat)
    (hr : ∀ p ∈ T.take n, p - 1 < l.length) :
    rangeBits l T n = (T.take n).map (fun p => l.getD (p - 1) '0') := by
  exact flatten_map_singleton _ _ _ (fun p hp => jsCharAt_of_lt l (p - 1) (hr p hp))

theorem length_rangeBits (l : List Char) (T : List Nat) (n : Nat)
    (hn : n ≤ T.length) (hr : ∀ p ∈ T.take n, p - 1 < l.length) :
    (rangeBits l T n).length = n := by
  rw [rangeBits_eq_map l T n hr]
  simp [List.length_take]
  omega

theorem isBits_rangeBits (l : List Char) (T : List Nat) (n : Nat) (h : IsBits l)
    (hr : ∀ p ∈ T.take n, p - 1 < l.length) : IsBits (rangeBits l T n) := by
  rw [rangeBits_eq_map l T n hr]
  intro c hc
  rcases List.mem_map.mp hc with ⟨p, hp, rfl⟩
  rw [List.getD_eq_getElem l '0' (hr p hp)]
  exact h _ (List.getElem_mem _)

theorem rangeBits_rangeBits (l : List Char) (T1 T2 : List Nat) (m : Nat)
    (hT1 : T1.length = m) (hT2 : T2.length = m) (hl : l.length = m)
    (hr1 : ∀ p ∈ T1, 1 ≤ p ∧ p ≤ m) (hr2 : ∀ p ∈ T2, 1 ≤ p ∧ p ≤ m)
    (hinv : ∀ i, i < m → T1.getD (T2.getD i 0 - 1) 0 = i + 1) :
    rangeBits (rangeBits l T1 m) T2 m = l := by
  have hr1l : ∀ p ∈ T1.take m, p - 1 < l.length := by
    intro p hp
    have := hr1 p (List.mem_of_mem_take hp)
    omega
  have htk1 : T1.take m = T1 := by
    rw [← hT1]
    exact List.take_length T1
  have hA : rangeBits l T1 m = T1.map (fun p => l.getD (p - 1) '0') := by
    rw [rangeBits_eq_map l T1 m hr1l, htk1]
  have hAlen : (rangeBits l T1 m).length = m := by
    rw [hA, List.length_map, hT1]
  have hr2l : ∀ p ∈ T2.take m, p - 1 < (rangeBits l T1 m).length := by
    intro p hp
    have := hr2 p (List.mem_of_mem_take hp)
    omega
  have htk2 : T2.take m = T2 := by
    rw [← hT2]
    exact List.take_length T2
  rw [rangeBits_eq_map _ T2 m hr2l, htk2]
  apply List.ext_getElem
  · simp [List.length_map, hT2, hl]
  · intro i h1 h2
    simp only [List.length_map] at h1
    have him : i < m := by omega
    rw [List.getElem_map]
    have hq := hr2 (T2[i]) (List.getElem_mem h1)
    have hqd : T2.getD i 0 = T2[i] := List.getD_eq_getElem T2 0 h1
    have hlt2 : T2[i] - 1 < T1.length := by omega
    simp only [hA]
    have hltm : T2[i] - 1 < (T1.map (fun p => l.getD (p - 1) '0')).length := by
      rw [List.length_map]
      exact hlt2
    rw [List.getD_eq_getElem _ '0' hltm, List.getElem_map]
    have hpd : T1[T2[i] - 1] = T1.getD (T2.getD i 0 - 1) 0 := by
      rw [hqd]
      exact (List.getD_eq_getElem T1 0 hlt2).symm
    rw [hpd, hinv i him]
    simp only [Nat.add_sub_cancel]
    exact List.getD_eq_getElem l '0' h2

theorem length_xorBinaryStrings (a b : List Char) (n : Nat) :
    (xorBinaryStrings a b n).length = n := by
  simp [xorBinaryStrings]

theorem isBits_xorBinaryStrings (a b : List Char) (n : Nat) :
    IsBits (xorBinaryStrings a b n) := by
  intro c hc
  rcases List.mem_map.mp hc with ⟨i, hi, rfl⟩
  by_cases h : a[i]? = b[i]? <;> simp [h]

theorem xorBinaryStrings_getElem (a b : List Char) (n i : Nat) (h : i < n) :
    (xorBinaryStrings a b n).getD i '0' = if a[i]? = b[i]? then '0' else '1' := by
  have hlen : i < (xorBinaryStrings a b n).length := by
    rw [length_xorBinaryStrings]
    exact h
  rw [List.getD_eq_getElem _ '0' hlen]
  simp only [xorBinaryStrings, List.getElem_map, List.getElem_range]

theorem xorBinaryStrings_cancel (L p : List Char) (n : Nat) (hL : IsBits L)
    (hp : IsBits p) (hLl : L.length = n) (hpl : p.length = n) :
    xorBinaryStrings (xorBinaryStrings L p n) p n = L := by
  apply List.ext_getElem
  · rw [length_xorBinaryStrings, hLl]
  · intro i h1 h2
    rw [length_xorBinaryStrings] at h1
    simp only [xorBinaryStrings, List.getElem_map, List.getElem_range]
    have hx : (List.range n).map
        (fun i => if L[i]? = p[i]? then '0' else '1') = xorBinaryStrings L p n := rfl
    rw [hx]
    have hxi : (xorBinaryStrings L p n)[i]? =
        some (if L[i]? = p[i]? then '0' else '1') := by
      have hlen : i < (xorBinaryStrings L p n).length := by
        rw [length_xorBinaryStrings]
        exact h1
      rw [List.getElem?_eq_getElem hlen]
      simp only [xorBinaryStrings, List.getElem_map, List.getElem_range]
    rw [hxi]
    have hLi : L[i]? = some (L[i]) := List.getElem?_eq_getElem h2
    have hpi1 : i < p.length := by omega
    have hpi : p[i]? = some (p[i]) := List.getElem?_eq_getElem hpi1
    rw [hLi, hpi]
    rcases hL (L[i]) (List.getElem_mem h2) with ha | ha <;>
      rcases hp (p[i]) (List.getElem_mem hpi1) with hb | hb <;>
        rw [ha, hb] <;> simp

theorem chunksOf_flatten (n : Nat) (hn : 0 < n) (B : List (List α))
    (h : ∀ b ∈ B, b.length = n) : chunksOf n B.flatten = B := by
  induction B with
  | nil =>
    simp only [List.flatten_nil]
    exact chunksOf_nil n
  | cons b t ih =>
    have hb : b.length = n := h b (List.mem_cons_self b t)
    have hbne : b ≠ [] := by
      intro hx
      rw [hx] at hb
      simp at hb
      omega
    rcases b with _ | ⟨x, xs⟩
    · exact absurd rfl hbne
    · simp only [List.flatten_cons]
      rw [List.cons_append, chunksOf_cons n hn]
      rw [← List.cons_append]
      rw [show ((x :: xs) ++ t.flatten).take n = x :: xs by
        rw [← hb]
        exact List.take_left _ _]
      rw [show ((x :: xs) ++ t.flatten).drop n = t.flatten by
        rw [← hb]
        exact List.drop_left _ _]
      rw [ih (fun y hy => h y (List.mem_cons_of_mem _ hy))]

theorem chunksOf_of_mul (n k : Nat) (hn : 0 < n) (l : List α) (h : l.length = n * k) :
    (∀ c ∈ chunksOf n l, c.length = n) ∧ (chunksOf n l).flatten = l ∧
      (chunksOf n l).length = k := by
  induction k generalizing l with
  | zero =>
    have hl : l = [] := List.length_eq_zero.mp (by simpa using h)
    subst hl
    simp [chunksOf_nil]
  | succ k ih =>
    have hne : l ≠ [] := by
      intro hx
      rw [hx] at h
      simp at h
      omega
    rcases l with _ | ⟨a, t⟩
    · exact absurd rfl hne
    · rw [Nat.mul_succ] at h
      rw [chunksOf_cons n hn]
      have htake : ((a :: t).take n).length = n := by
        rw [List.length_take]
        simp only [List.length_cons] at h ⊢
        omega
      have hdrop : ((a :: t).drop n).length = n * k := by
        rw [List.length_drop]
        simp only [List.length_cons] at h ⊢
        omega
      obtain ⟨ih1, ih2, ih3⟩ := ih _ hdrop
      refine ⟨?_, ?_, ?_⟩
      · intro c hc
        rcases List.mem_cons.mp hc with rfl | hc2
        · exact htake
        · exact ih1 c hc2
      · simp only [List.flatten_cons, ih2]
        exact List.take_append_drop n (a :: t)
      · simp [ih3]

theorem isBits_take (l : List Char) (n : Nat) (h : IsBits l) : IsBits (l.take n) :=
  fun c hc => h c (List.take_subset n l hc)

theorem isBits_drop (l : List Char) (n : Nat) (h : IsBits l) : IsBits (l.drop n) :=
  fun c hc => h c (List.drop_subset n l hc)

theorem isBits_append (l1 l2 : List Char) (h1 : IsBits l1) (h2 : IsBits l2) :
    IsBits (l1 ++ l2) := by
  intro c hc
  rcases List.mem_append.mp hc with h | h
  · exact h1 c h
  · exact h2 c h

theorem getD_prop {α : Type} (l : List α) (d : α) (P : α → Prop)
    (hl : ∀ x ∈ l, P x) (hd : P d) (n : Nat) : P (l.getD n d) := by
  by_cases h : n < l.length
  · rw [List.getD_eq_getElem l d h]
    exact hl _ (List.getElem_mem h)
  · rw [List.getD_eq_default l d (by omega)]
    exact hd

theorem IP_length : IP.length = 64 := by decide

theorem IP_INVERSE_length : IP_INVERSE.length = 64 := by decide

theorem IP_mem_bounds : ∀ p ∈ IP, 1 ≤ p ∧ p ≤ 64 := by decide

theorem IP_INVERSE_mem_bounds : ∀ p ∈ IP_INVERSE, 1 ≤ p ∧ p ≤ 64 := by decide

theorem IP_inv_comp : ∀ i, i < 64 → IP.getD (IP_INVERSE.getD i 0 - 1) 0 = i + 1 := by decide

theorem IP_comp_inv : ∀ i, i < 64 → IP_INVERSE.getD (IP.getD i 0 - 1) 0 = i + 1 := by decide

theorem E_SELECTION_length : E_SELECTION.length = 48 := by decide

theorem E_SELECTION_mem_bounds : ∀ p ∈ E_SELECTION, 1 ≤ p ∧ p ≤ 32 := by decide

theorem P_TRANSFORM_length : P_TRANSFORM.length = 32 := by decide

theorem P_TRANSFORM_mem_bounds : ∀ p ∈ P_TRANSFORM, 1 ≤ p ∧ p ≤ 32 := by decide

theorem PC_1_length : PC_1.length = 56 := by decide

theorem PC_1_mem_bounds : ∀ p ∈ PC_1, 1 ≤ p ∧ p ≤ 64 := by decide

theorem PC_2_length : PC_2.length = 48 := by decide

theorem PC_2_mem_bounds : ∀ p ∈ PC_2, 1 ≤ p ∧ p ≤ 56 := by decide

theorem KEY_SHIFT_length : KEY_SHIFT.length = 16 := by decide

theorem S_BOX_bounds : ∀ t ∈ S_BOX, ∀ r ∈ t, ∀ v ∈ r, v < 16 := by decide

theorem ip_then_inverse (l : List Char) (hl : l.length = 64) :
    rangeBits (rangeBits l IP 64) IP_INVERSE 64 = l :=
  rangeBits_rangeBits l IP IP_INVERSE 64 IP_length IP_INVERSE_length hl
    IP_mem_bounds IP_INVERSE_mem_bounds IP_inv_comp

theorem inverse_then_ip (l : List Char) (hl : l.length = 64) :
    rangeBits (rangeBits l IP_INVERSE 64) IP 64 = l :=
  rangeBits_rangeBits l IP_INVERSE IP 64 IP_INVERSE_length IP_length hl
    IP_INVERSE_mem_bounds IP_mem_bounds IP_comp_inv

theorem sBox_val_lt (i row col : Nat) :
    ((S_BOX.getD i []).getD row []).getD col 0 < 16 := by
  refine getD_prop _ 0 (fun v => v < 16) ?_ (by norm_num) col
  refine getD_prop _ [] (fun r => ∀ v ∈ r, v < 16) ?_ (by simp) row
  refine getD_prop _ [] (fun t => ∀ r ∈ t, ∀ v ∈ r, v < 16) ?_ (by simp) i
  exact S_BOX_bounds

theorem isBits_natToBin_pad (v k : Nat) : IsBits (jsPadStart (natToBin v) k '0') :=
  isBits_jsPadStart _ k (natToBin_isBits v)

theorem length_decimalToBinary (v k : Nat) (hk : 0 < k) (h : v < 2 ^ k) :
    (decimalToBinary v k).length = k := by
  rw [decimalToBinary, length_jsPadStart]
  have := natToBin_length_le v k hk h
  omega

theorem isBits_decimalToBinary (v k : Nat) : IsBits (decimalToBinary v k) :=
  isBits_natToBin_pad v k

theorem flatten_map_length {α : Type} (L : List α) (f : α → List Char) (k : Nat)
    (h : ∀ x ∈ L, (f x).length = k) : (L.map f).flatten.length = L.length * k := by
  induction L with
  | nil => simp
  | cons x t ih =>
    simp only [List.map_cons, List.flatten_cons, List.length_append,
      h x (List.mem_cons_self x t), List.length_cons]
    rw [ih (fun y hy => h y (List.mem_cons_of_mem _ hy))]
    ring

theorem isBits_flatten_map {α : Type} (L : List α) (f : α → List Char)
    (h : ∀ x ∈ L, IsBits (f x)) : IsBits (L.map f).flatten := by
  intro c hc
  rcases List.mem_flatten.mp hc with ⟨m, hm, hcm⟩
  rcases List.mem_map.mp hm with ⟨x, hx, rfl⟩
  exact h x hx c hcm

theorem sBoxPure_length (x : List Char) : (sBoxPure x).length = 32 := by
  rw [sBoxPure, flatten_map_length _ _ 4 ?_]
  · simp
  · intro i hi
    exact length_decimalToBinary _ 4 (by norm_num) (sBox_val_lt _ _ _)

theorem isBits_sBoxPure (x : List Char) : IsBits (sBoxPure x) := by
  refine isBits_flatten_map _ _ ?_
  intro i hi
  exact isBits_decimalToBinary _ 4

theorem ePure_length (x : List Char) (hx : x.length = 32) : (ePure x).length = 48 := by
  rw [ePure, flatten_map_singleton _ _ (fun p => x.getD (p - 1) '0') ?_]
  · simp [E_SELECTION_length]
  · intro p hp
    refine jsCharAt_of_lt x (p - 1) ?_
    have := E_SELECTION_mem_bounds p hp
    omega

theorem isBits_ePure (x : List Char) (hx : IsBits x) (hxl : x.length = 32) :
    IsBits (ePure x) := by
  have hr : ∀ p ∈ E_SELECTION.take 48, p - 1 < x.length := by
    intro p hp
    have := E_SELECTION_mem_bounds p (List.take_subset _ _ hp)
    omega
  have : ePure x = rangeBits x E_SELECTION 48 := by
    rw [rangeBits, show E_SELECTION.take 48 = E_SELECTION from
      by rw [← E_SELECTION_length]; exact List.take_length _]
    rfl
  rw [this]
  exact isBits_rangeBits x E_SELECTION 48 hx hr

theorem fFunction_length (k r : List Char) : (fFunction k r).length = 32 := by
  rw [fFunction]
  refine length_rangeBits _ _ 32 (by rw [P_TRANSFORM_length]) ?_
  intro p hp
  have := P_TRANSFORM_mem_bounds p (List.take_subset _ _ hp)
  rw [sBoxPure_length]
  omega

theorem isBits_fFunction (k r : List Char) : IsBits (fFunction k r) := by
  rw [fFunction]
  refine isBits_rangeBits _ _ 32 (isBits_sBoxPure _) ?_
  intro p hp
  have := P_TRANSFORM_mem_bounds p (List.take_subset _ _ hp)
  rw [sBoxPure_length]
  omega

theorem exceptBindOk {ε α β : Type} (a : α) (f : α → Except ε β) :
    (Except.ok a >>= f : Except ε β) = f a := rfl

theorem exceptBindErr {ε α β : Type} (e : ε) (f : α → Except ε β) :
    (Except.error e >>= f : Except ε β) = Except.error e := rfl

theorem exceptPureEq {ε α : Type} (a : α) : (pure a : Except ε α) = Except.ok a := rfl

theorem e_transform_ok (x : List Char) (hx : x.length = 32) :
    e_transform x = .ok (ePure x) := by
  rw [e_transform, if_neg (by omega)]

theorem mapM_ok {ε α β : Type} (L : List α) (f : α → Except ε β) (g : α → β)
    (h : ∀ x ∈ L, f x = .ok (g x)) : L.mapM f = .ok (L.map g) := by
  induction L with
  | nil => rfl
  | cons a t ih =>
    rw [List.mapM_cons, h a (List.mem_cons_self a t),
      ih (fun y hy => h y (List.mem_cons_of_mem _ hy))]
    rfl

theorem sBoxTransform_ok (x : List Char) (hx : IsBits x) (hlen : x.length = 48) :
    sBoxTransform x = .ok (sBoxPure x) := by
  rw [sBoxTransform, sBoxPure]
  have hstep : ∀ i ∈ List.range 8,
      (do
        let sixBits := (x.drop (i * 6)).take 6
        match jsParseInt binDigitVal 2 (sixBits.take 1 ++ sixBits.drop 5),
            jsParseInt binDigitVal 2 ((sixBits.drop 1).take 4) with
        | some row, some column =>
          pure (decimalToBinary (((S_BOX.getD i []).getD row []).getD column 0) 4)
        | _, _ => Except.error DESError.typeError : Except DESError (List Char)) =
      .ok (let sixBits := (x.drop (i * 6)).take 6
        decimalToBinary (((S_BOX.getD i []).getD
          (bitsVal (sixBits.take 1 ++ sixBits.drop 5)) []).getD
          (bitsVal ((sixBits.drop 1).take 4)) 0) 4) := by
    intro i hi
    have hi8 : i < 8 := List.mem_range.mp hi
    have hsix : ((x.drop (i * 6)).take 6).length = 6 := by
      rw [List.length_take, List.length_drop, hlen]
      omega
    have hsixb : IsBits ((x.drop (i * 6)).take 6) :=
      isBits_take _ _ (isBits_drop _ _ hx)
    have hrow : jsParseInt binDigitVal 2
        (((x.drop (i * 6)).take 6).take 1 ++ ((x.drop (i * 6)).take 6).drop 5) =
        some (bitsVal (((x.drop (i * 6)).take 6).take 1 ++
          ((x.drop (i * 6)).take 6).drop 5)) := by
      refine jsParseInt_bits _ (isBits_append _ _ (isBits_take _ _ hsixb)
        (isBits_drop _ _ hsixb)) ?_
      intro hemp
      have := congrArg List.length hemp
      simp only [List.length_append, List.length_take, List.length_drop, hsix,
        List.length_nil] at this
      omega
    have hcol : jsParseInt binDigitVal 2 ((((x.drop (i * 6)).take 6).drop 1).take 4) =
        some (bitsVal ((((x.drop (i * 6)).take 6).drop 1).take 4)) := by
      refine jsParseInt_bits _ (isBits_take _ _ (isBits_drop _ _ hsixb)) ?_
      intro hemp
      have := congrArg List.length hemp
      simp only [List.length_take, List.length_drop, hsix, List.length_nil] at this
      omega
    simp only [hrow, hcol]
    rfl
  rw [mapM_ok _ _ _ hstep]
  rfl

theorem feistelRound_ok (st : List Char × List Char) (k : List Char)
    (hR : IsBits st.2) (hRl : st.2.length = 32) :
    feistelRound st k = .ok (desRound k st) := by
  rcases st with ⟨L, R⟩
  simp only at hR hRl
  rw [feistelRound]
  simp only [e_transform_ok R hRl, exceptBindOk]
  have hs := sBoxTransform_ok (xorBinaryStrings (ePure R) k 48)
    (isBits_xorBinaryStrings _ _ _) (length_xorBinaryStrings _ _ _)
  simp only [hs, exceptBindOk]
  rfl

theorem desRound_fst (k : List Char) (st : List Char × List Char) :
    (desRound k st).1 = st.2 := rfl

theorem desRound_snd (k : List Char) (st : List Char × List Char) :
    (desRound k st).2 = xorBinaryStrings st.1 (fFunction k st.2) 32 := rfl

theorem foldlM_feistel (keys : List (List Char)) (st : List Char × List Char)
    (h2 : IsBits st.2) (hl2 : st.2.length = 32) :
    keys.foldlM feistelRound st = .ok (keys.foldl (fun s k => desRound k s) st) := by
  induction keys generalizing st with
  | nil => rfl
  | cons k t ih =>
    rw [List.foldlM_cons, feistelRound_ok st k h2 hl2]
    show t.foldlM feistelRound (desRound k st) = _
    rw [ih (desRound k st) (isBits_xorBinaryStrings _ _ _) (length_xorBinaryStrings _ _ _)]
    rfl

theorem foldl_desRound_inv (keys : List (List Char)) (st : List Char × List Char)
    (h1 : IsBits st.1) (h2 : IsBits st.2) (hl1 : st.1.length = 32)
    (hl2 : st.2.length = 32) :
    IsBits (keys.foldl (fun s k => desRound k s) st).1 ∧
    IsBits (keys.foldl (fun s k => desRound k s) st).2 ∧
    (keys.foldl (fun s k => desRound k s) st).1.length = 32 ∧
    (keys.foldl (fun s k => desRound k s) st).2.length = 32 := by
  induction keys generalizing st with
  | nil => exact ⟨h1, h2, hl1, hl2⟩
  | cons k t ih =>
    rw [List.foldl_cons]
    exact ih (desRound k st) h2 (isBits_xorBinaryStrings _ _ _) hl2
      (length_xorBinaryStrings _ _ _)

theorem desRound_swap (k : List Char) (st : List Char × List Char)
    (h1 : IsBits st.1) (hl1 : st.1.length = 32) :
    desRound k (swapStrings (desRound k st)) = swapStrings st := by
  rcases st with ⟨L, R⟩
  simp only at h1 hl1
  simp only [desRound, swapStrings]
  rw [xorBinaryStrings_cancel L (fFunction k R) 32 h1 (isBits_fFunction k R) hl1
    (fFunction_length k R)]

theorem foldr_desRound_swap (keys : List (List Char)) (st : List Char × List Char)
    (h1 : IsBits st.1) (h2 : IsBits st.2) (hl1 : st.1.length = 32)
    (hl2 : st.2.length = 32) :
    keys.foldr (fun k s => desRound k s)
      (swapStrings (keys.foldl (fun s k => desRound k s) st)) = swapStrings st := by
  induction keys generalizing st with
  | nil => rfl
  | cons k t ih =>
    simp only [List.foldr_cons, List.foldl_cons]
    rw [ih (desRound k st) h2 (isBits_xorBinaryStrings _ _ _) hl2
      (length_xorBinaryStrings _ _ _)]
    exact desRound_swap k st h1 hl1

theorem splitBinary_ok (x : List Char) (h : x.length = 64) :
    splitBinary x = .ok (x.take 32, x.drop 32) := by
  rw [splitBinary, if_neg (by omega)]

theorem rangeBits_IP_facts (b : List Char) (hb : IsBits b) (hbl : b.length = 64) :
    (rangeBits b IP 64).length = 64 ∧ IsBits (rangeBits b IP 64) := by
  have hr : ∀ p ∈ IP.take 64, p - 1 < b.length := by
    intro p hp
    have := IP_mem_bounds p (List.take_subset _ _ hp)
    omega
  exact ⟨length_rangeBits b IP 64 (by rw [IP_length]) hr,
    isBits_rangeBits b IP 64 hb hr⟩

theorem rangeBits_IPINV_facts (b : List Char) (hb : IsBits b) (hbl : b.length = 64) :
    (rangeBits b IP_INVERSE 64).length = 64 ∧ IsBits (rangeBits b IP_INVERSE 64) := by
  have hr : ∀ p ∈ IP_INVERSE.take 64, p - 1 < b.length := by
    intro p hp
    have := IP_INVERSE_mem_bounds p (List.take_subset _ _ hp)
    omega
  exact ⟨length_rangeBits b IP_INVERSE 64 (by rw [IP_INVERSE_length]) hr,
    isBits_rangeBits b IP_INVERSE 64 hb hr⟩

theorem desBlock_ok (keys : List (List Char)) (b : List Char)
    (hb : IsBits b) (hbl : b.length = 64) :
    desBlock keys b = .ok (desBlockSpec keys b) := by
  obtain ⟨hIPlen, hIPbits⟩ := rangeBits_IP_facts b hb hbl
  rw [desBlock, splitBinary_ok _ hIPlen]
  simp only [exceptBindOk]
  rw [foldlM_feistel _ _ (isBits_drop _ _ hIPbits) (by rw [List.length_drop, hIPlen])]
  simp only [exceptBindOk, exceptPureEq]
  rfl

theorem desBlockSpec_facts (keys : List (List Char)) (b : List Char)
    (hb : IsBits b) (hbl : b.length = 64) :
    (desBlockSpec keys b).length = 64 ∧ IsBits (desBlockSpec keys b) := by
  obtain ⟨hIPlen, hIPbits⟩ := rangeBits_IP_facts b hb hbl
  obtain ⟨hf1, hf2, hfl1, hfl2⟩ := foldl_desRound_inv keys
    ((rangeBits b IP 64).take 32, (rangeBits b IP 64).drop 32)
    (isBits_take _ _ hIPbits) (isBits_drop _ _ hIPbits)
    (by rw [List.length_take, hIPlen]; omega) (by rw [List.length_drop, hIPlen])
  rw [desBlockSpec]
  refine rangeBits_IPINV_facts _ (isBits_append _ _ hf2 hf1) ?_
  rw [List.length_append]
  omega

theorem desBlockSpec_inverse (keys : List (List Char)) (b : List Char)
    (hb : IsBits b) (hbl : b.length = 64) :
    desBlockSpec keys.reverse (desBlockSpec keys b) = b := by
  obtain ⟨hIPlen, hIPbits⟩ := rangeBits_IP_facts b hb hbl
  have hst1 : IsBits ((rangeBits b IP 64).take 32) := isBits_take _ _ hIPbits
  have hst2 : IsBits ((rangeBits b IP 64).drop 32) := isBits_drop _ _ hIPbits
  have hstl1 : ((rangeBits b IP 64).take 32).length = 32 := by
    rw [List.length_take, hIPlen]
    omega
  have hstl2 : ((rangeBits b IP 64).drop 32).length = 32 := by
    rw [List.length_drop, hIPlen]
  obtain ⟨hf1, hf2, hfl1, hfl2⟩ := foldl_desRound_inv keys
    ((rangeBits b IP 64).take 32, (rangeBits b IP 64).drop 32) hst1 hst2 hstl1 hstl2
  set f := keys.foldl (fun s k => desRound k s)
    ((rangeBits b IP 64).take 32, (rangeBits b IP 64).drop 32) with hf
  have hcatlen : (f.2 ++ f.1).length = 64 := by
    rw [List.length_append]
    omega
  have hcatbits : IsBits (f.2 ++ f.1) := isBits_append _ _ hf2 hf1
  show desBlockSpec keys.reverse (rangeBits (f.2 ++ f.1) IP_INVERSE 64) = b
  rw [desBlockSpec]
  rw [inverse_then_ip (f.2 ++ f.1) hcatlen]
  have htake : (f.2 ++ f.1).take 32 = f.2 := by
    rw [← hfl2]
    exact List.take_left _ _
  have hdrop : (f.2 ++ f.1).drop 32 = f.1 := by
    rw [← hfl2]
    exact List.drop_left _ _
  rw [htake, hdrop]
  have hswap : (f.2, f.1) = swapStrings f := rfl
  rw [hswap, List.foldl_reverse]
  have hfr := foldr_desRound_swap keys
    ((rangeBits b IP 64).take 32, (rangeBits b IP 64).drop 32) hst1 hst2 hstl1 hstl2
  rw [← hf] at hfr
  have hbeta : (fun (x : List Char) (y : List Char × List Char) =>
      (fun (s : List Char × List Char) (k : List Char) => desRound k s) y x) =
      (fun (k : List Char) (s : List Char × List Char) => desRound k s) := rfl
  rw [hbeta, hfr]
  show rangeBits ((rangeBits b IP 64).take 32 ++ (rangeBits b IP 64).drop 32)
    IP_INVERSE 64 = b
  rw [List.take_append_drop]
  exact ip_then_inverse b hbl

theorem charKeyBits_isBits (c : Char) : IsBits (charKeyBits c) := by
  rw [charKeyBits]
  refine isBits_append _ _ (isBits_drop _ _ (isBits_natToBin_pad _ _)) ?_
  intro d hd
  rw [List.mem_singleton] at hd
  subst hd
  rw [calculateParityBit]
  split <;> simp

theorem charKeyBits_length (c : Char) (h : c.toNat ≤ 127) :
    (charKeyBits c).length = 8 := by
  rw [charKeyBits]
  have hnb : (natToBin c.toNat).length ≤ 7 :=
    natToBin_length_le c.toNat 7 (by norm_num) (by norm_num; omega)
  have hpad : (jsPadStart (natToBin c.toNat) 8 '0').length = 8 := by
    rw [length_jsPadStart]
    omega
  rw [List.length_append, List.length_drop, hpad]
  simp

theorem generate64BitKey_ok (input : List Char) (hlen : input.length = 8)
    (hascii : ∀ c ∈ input, c.toNat ≤ 127) :
    generate64BitKey input = .ok ((input.map charKeyBits).flatten) := by
  rw [generate64BitKey, if_neg (by omega)]
  rw [mapM_ok input _ charKeyBits (fun c hc => by
    rw [if_neg (by have := hascii c hc; omega)])]
  rfl

theorem generate64BitKey_err (input : List Char) (hlen : input.length = 8)
    (hbad : ∃ c ∈ input, 127 < c.toNat) :
    generate64BitKey input = .error .nonAscii := by
  rw [generate64BitKey, if_neg (by omega)]
  have hm : input.mapM (fun c =>
      if c.toNat > 127 then Except.error DESError.nonAscii
      else Except.ok (charKeyBits c)) = .error .nonAscii := by
    clear hlen
    induction input with
    | nil => simp at hbad
    | cons a t ih =>
      rw [List.mapM_cons]
      by_cases ha : 127 < a.toNat
      · rw [if_pos ha]
        rfl
      · rw [if_neg ha, exceptBindOk]
        have hbt : ∃ c ∈ t, 127 < c.toNat := by
          rcases hbad with ⟨c, hc, hcb⟩
          rcases List.mem_cons.mp hc with rfl | hct
          · exact absurd hcb ha
          · exact ⟨c, hct, hcb⟩
        rw [ih hbt]
        rfl
  rw [hm]
  rfl

theorem xorBinaryKeys_length (k1 k2 : List Char) :
    (xorBinaryKeys k1 k2).length = k1.length := by
  simp [xorBinaryKeys]

theorem isBits_xorBinaryKeys (k1 k2 : List Char) : IsBits (xorBinaryKeys k1 k2) := by
  intro c hc
  rcases List.mem_map.mp hc with ⟨i, hi, rfl⟩
  by_cases h : k1[i]? = k2[i]? <;> simp [h]

theorem foldl_xorKeys_facts (ks : List (List Char)) (k0 : List Char)
    (hl : k0.length = 64) (hb : IsBits k0) :
    (ks.foldl xorBinaryKeys k0).length = 64 ∧ IsBits (ks.foldl xorBinaryKeys k0) := by
  induction ks generalizing k0 with
  | nil => exact ⟨hl, hb⟩
  | cons k t ih =>
    rw [List.foldl_cons]
    exact ih (xorBinaryKeys k0 k) (by rw [xorBinaryKeys_length, hl])
      (isBits_xorBinaryKeys _ _)

theorem processKey_ok (input : List Char) (hne : input ≠ [])
    (hascii : ∀ c ∈ input, c.toNat ≤ 127) :
    ∃ k, processKey input = .ok (some k) ∧ k.length = 64 ∧ IsBits k := by
  have hlen1 : 1 ≤ input.length := by
    rcases input with _ | _
    · exact absurd rfl hne
    · simp
  have htarget : input.length ≤ ((input.length + 7) / 8) * 8 := by omega
  have hpadlen : (jsPadEnd input (((input.length + 7) / 8) * 8) '0').length =
      8 * ((input.length + 7) / 8) := by
    rw [jsPadEnd, List.length_append, List.length_replicate]
    omega
  have hpadascii : ∀ c ∈ jsPadEnd input (((input.length + 7) / 8) * 8) '0',
      c.toNat ≤ 127 := by
    intro c hc
    rcases List.mem_append.mp hc with h | h
    · exact hascii c h
    · rw [List.eq_of_mem_replicate h]
      decide
  obtain ⟨hch1, hch2, hch3⟩ := chunksOf_of_mul 8 ((input.length + 7) / 8)
    (by norm_num) _ hpadlen
  have hchascii : ∀ ch ∈ chunksOf 8 (jsPadEnd input (((input.length + 7) / 8) * 8) '0'),
      ∀ c ∈ ch, c.toNat ≤ 127 := by
    intro ch hch c hc
    refine hpadascii c ?_
    rw [← hch2]
    exact List.mem_flatten.mpr ⟨ch, hch, hc⟩
  have hmap := mapM_ok (chunksOf 8 (jsPadEnd input (((input.length + 7) / 8) * 8) '0'))
    generate64BitKey (fun ch => (ch.map charKeyBits).flatten)
    (fun ch hch => generate64BitKey_ok ch (hch1 ch hch) (hchascii ch hch))
  have hq1 : 1 ≤ (input.length + 7) / 8 := by omega
  have hchne : chunksOf 8 (jsPadEnd input (((input.length + 7) / 8) * 8) '0') ≠ [] := by
    intro hx
    rw [hx] at hch3
    simp at hch3
    omega
  rcases hchlist : chunksOf 8 (jsPadEnd input (((input.length + 7) / 8) * 8) '0') with
    _ | ⟨ch0, cht⟩
  · exact absurd hchlist hchne
  · have hk0len : ((ch0.map charKeyBits).flatten).length = 64 := by
      rw [flatten_map_length ch0 charKeyBits 8 (fun c hc =>
        charKeyBits_length c (hchascii ch0 (hchlist ▸ List.mem_cons_self _ _) c hc))]
      rw [hch1 ch0 (hchlist ▸ List.mem_cons_self _ _)]
    have hk0bits : IsBits ((ch0.map charKeyBits).flatten) :=
      isBits_flatten_map _ _ (fun c hc => charKeyBits_isBits c)
    obtain ⟨hfl, hfb⟩ := foldl_xorKeys_facts (cht.map (fun ch => (ch.map charKeyBits).flatten))
      ((ch0.map charKeyBits).flatten) hk0len hk0bits
    refine ⟨_, ?_, hfl, hfb⟩
    rw [processKey]
    rw [hchlist] at hmap
    simp only [hchlist, hmap, exceptBindOk, List.map_cons]
    rfl

theorem mapM_error_first {ε α β : Type} (L : List α) (f : α → Except ε β) (e : ε)
    (h : ∀ x ∈ L, (∃ y, f x = .ok y) ∨ f x = .error e)
    (hex : ∃ x ∈ L, f x = .error e) : L.mapM f = .error e := by
  induction L with
  | nil => simp at hex
  | cons a t ih =>
    rw [List.mapM_cons]
    rcases h a (List.mem_cons_self a t) with ⟨y, hy⟩ | hy
    · rw [hy, exceptBindOk]
      have hext : ∃ x ∈ t, f x = .error e := by
        rcases hex with ⟨x, hx, hxe⟩
        rcases List.mem_cons.mp hx with rfl | hxt
        · rw [hy] at hxe
          exact absurd hxe (by intro hc; cases hc)
        · exact ⟨x, hxt, hxe⟩
      rw [ih (fun x hx => h x (List.mem_cons_of_mem _ hx)) hext]
      rfl
    · rw [hy]
      rfl

theorem processKey_empty : processKey [] = .ok none := by decide

theorem processKey_error (input : List Char)
    (hbad : ∃ c ∈ input, 127 < c.toNat) :
    processKey input = .error .nonAscii := by
  have hlen1 : 1 ≤ input.length := by
    rcases input with _ | _
    · simp at hbad
    · simp
  have htarget : input.length ≤ ((input.length + 7) / 8) * 8 := by omega
  have hpadlen : (jsPadEnd input (((input.length + 7) / 8) * 8) '0').length =
      8 * ((input.length + 7) / 8) := by
    rw [jsPadEnd, List.length_append, List.length_replicate]
    omega
  obtain ⟨hch1, hch2, hch3⟩ := chunksOf_of_mul 8 ((input.length + 7) / 8)
    (by norm_num) _ hpadlen
  have hclass : ∀ ch ∈ chunksOf 8 (jsPadEnd input (((input.length + 7) / 8) * 8) '0'),
      (∃ y, generate64BitKey ch = .ok y) ∨ generate64BitKey ch = .error .nonAscii := by
    intro ch hch
    by_cases hall : ∀ c ∈ ch, c.toNat ≤ 127
    · exact Or.inl ⟨_, generate64BitKey_ok ch (hch1 ch hch) hall⟩
    · push_neg at hall
      rcases hall with ⟨c, hc, hcb⟩
      exact Or.inr (generate64BitKey_err ch (hch1 ch hch) ⟨c, hc, by omega⟩)
  have hex : ∃ ch ∈ chunksOf 8 (jsPadEnd input (((input.length + 7) / 8) * 8) '0'),
      generate64BitKey ch = .error .nonAscii := by
    rcases hbad with ⟨c, hc, hcb⟩
    have hcpad : c ∈ jsPadEnd input (((input.length + 7) / 8) * 8) '0' :=
      List.mem_append_left _ hc
    rw [← hch2] at hcpad
    rcases List.mem_flatten.mp hcpad with ⟨ch, hch, hcch⟩
    refine ⟨ch, hch, generate64BitKey_err ch (hch1 ch hch) ⟨c, hcch, hcb⟩⟩
  rw [processKey]
  rw [mapM_error_first _ generate64BitKey DESError.nonAscii hclass hex]
  rfl

theorem leftShift_length (l : List Char) (s : Nat) : (leftShift l s).length = l.length := by
  rw [leftShift, List.length_append, List.length_drop, List.length_take]
  omega

theorem isBits_leftShift (l : List Char) (s : Nat) (h : IsBits l) :
    IsBits (leftShift l s) :=
  isBits_append _ _ (isBits_drop _ _ h) (isBits_take _ _ h)

theorem subKey_facts (left right : List Char) (hl : left.length = 28)
    (hr : right.length = 28) (hbl : IsBits left) (hbr : IsBits right) :
    (rangeBits (left ++ right) PC_2 48).length = 48 ∧
    IsBits (rangeBits (left ++ right) PC_2 48) := by
  have hrange : ∀ p ∈ PC_2.take 48, p - 1 < (left ++ right).length := by
    intro p hp
    have := PC_2_mem_bounds p (List.take_subset _ _ hp)
    rw [List.length_append]
    omega
  exact ⟨length_rangeBits _ PC_2 48 (by rw [PC_2_length]) hrange,
    isBits_rangeBits _ PC_2 48 (isBits_append _ _ hbl hbr) hrange⟩

theorem subkeys_fold_facts (shifts : List Nat) (lr : List Char × List Char)
    (acc : List (List Char)) (hl : lr.1.length = 28) (hr : lr.2.length = 28)
    (hbl : IsBits lr.1) (hbr : IsBits lr.2)
    (hacc : ∀ sk ∈ acc, sk.length = 48 ∧ IsBits sk) :
    ((shifts.foldl
      (fun (st : (List Char × List Char) × List (List Char)) shift =>
        let left28bit := leftShift st.1.1 shift
        let right28bit := leftShift st.1.2 shift
        let combinedKey := left28bit ++ right28bit
        ((left28bit, right28bit), st.2 ++ [rangeBits combinedKey PC_2 48]))
      (lr, acc)).2).length = acc.length + shifts.length ∧
    ∀ sk ∈ (shifts.foldl
      (fun (st : (List Char × List Char) × List (List Char)) shift =>
        let left28bit := leftShift st.1.1 shift
        let right28bit := leftShift st.1.2 shift
        let combinedKey := left28bit ++ right28bit
        ((left28bit, right28bit), st.2 ++ [rangeBits combinedKey PC_2 48]))
      (lr, acc)).2, sk.length = 48 ∧ IsBits sk := by
  induction shifts generalizing lr acc with
  | nil => exact ⟨by simp, hacc⟩
  | cons sh t ih =>
    rw [List.foldl_cons]
    have hll : (leftShift lr.1 sh).length = 28 := by rw [leftShift_length, hl]
    have hrl : (leftShift lr.2 sh).length = 28 := by rw [leftShift_length, hr]
    have hsk := subKey_facts (leftShift lr.1 sh) (leftShift lr.2 sh) hll hrl
      (isBits_leftShift _ _ hbl) (isBits_leftShift _ _ hbr)
    have hacc2 : ∀ sk ∈ acc ++ [rangeBits (leftShift lr.1 sh ++ leftShift lr.2 sh) PC_2 48],
        sk.length = 48 ∧ IsBits sk := by
      intro sk hsk2
      rcases List.mem_append.mp hsk2 with h | h
      · exact hacc sk h
      · rw [List.mem_singleton] at h
        subst h
        exact hsk
    have := ih (leftShift lr.1 sh, leftShift lr.2 sh) _ hll hrl
      (isBits_leftShift _ _ hbl) (isBits_leftShift _ _ hbr) hacc2
    refine ⟨?_, this.2⟩
    rw [this.1]
    simp
    omega

theorem generateSubKeys_facts (k56 : List Char) (hb : IsBits k56) (hl : k56.length = 56) :
    (generateSubKeys k56).length = 16 ∧
    ∀ sk ∈ generateSubKeys k56, sk.length = 48 ∧ IsBits sk := by
  have h1 : (k56.take 28).length = 28 := by
    rw [List.length_take]
    omega
  have h2 : ((k56.drop 28).take 28).length = 28 := by
    rw [List.length_take, List.length_drop]
    omega
  have := subkeys_fold_facts KEY_SHIFT (k56.take 28, (k56.drop 28).take 28) [] h1 h2
    (isBits_take _ _ hb) (isBits_take _ _ (isBits_drop _ _ hb)) (by simp)
  rw [generateSubKeys]
  refine ⟨?_, this.2⟩
  rw [this.1]
  simp [KEY_SHIFT_length]

theorem getOutPutKeys_ok (key : List Char) (hne : key ≠ [])
    (hascii : ∀ c ∈ key, c.toNat ≤ 127) :
    ∃ ks, getOutPutKeys key = .ok ks ∧ ks.length = 16 ∧
      ∀ sk ∈ ks, sk.length = 48 ∧ IsBits sk := by
  obtain ⟨k, hk, hkl, hkb⟩ := processKey_ok key hne hascii
  have hpc1 : ∀ p ∈ PC_1.take 56, p - 1 < k.length := by
    intro p hp
    have := PC_1_mem_bounds p (List.take_subset _ _ hp)
    omega
  have hafter1 : (rangeBits k PC_1 56).length = 56 :=
    length_rangeBits k PC_1 56 (by rw [PC_1_length]) hpc1
  have hafter2 : IsBits (rangeBits k PC_1 56) := isBits_rangeBits k PC_1 56 hkb hpc1
  obtain ⟨hg1, hg2⟩ := generateSubKeys_facts (rangeBits k PC_1 56) hafter2 hafter1
  refine ⟨generateSubKeys (rangeBits k PC_1 56), ?_, hg1, hg2⟩
  rw [getOutPutKeys, outPutKeys, hk]
  rfl

theorem getOutPutKeys_empty : getOutPutKeys [] = .error .typeError := by decide

theorem getOutPutKeys_error (key : List Char) (hbad : ∃ c ∈ key, 127 < c.toNat) :
    getOutPutKeys key = .error .nonAscii := by
  rw [getOutPutKeys, outPutKeys, processKey_error key hbad]
  rfl

theorem char_toNat_valid (c : Char) :
    c.toNat < 55296 ∨ (57343 < c.toNat ∧ c.toNat < 1114112) := c.valid

theorem utf8EncodeChar_byte_lt (c : Char) : ∀ b ∈ utf8EncodeChar c, b < 256 := by
  have hval := char_toNat_valid c
  rw [utf8EncodeChar]
  by_cases h1 : c.toNat < 0x80
  · rw [if_pos h1]
    intro b hb
    simp only [List.mem_singleton] at hb
    omega
  · rw [if_neg h1]
    by_cases h2 : c.toNat < 0x800
    · rw [if_pos h2]
      intro b hb
      simp only [List.mem_cons, List.mem_singleton, List.not_mem_nil, or_false] at hb
      rcases hb with rfl | rfl <;> omega
    · rw [if_neg h2]
      by_cases h3 : c.toNat < 0x10000
      · rw [if_pos h3]
        intro b hb
        simp only [List.mem_cons, List.mem_singleton, List.not_mem_nil, or_false] at hb
        rcases hb with rfl | rfl | rfl <;> omega
      · rw [if_neg h3]
        intro b hb
        simp only [List.mem_cons, List.mem_singleton, List.not_mem_nil, or_false] at hb
        rcases hb with rfl | rfl | rfl | rfl <;> omega

theorem utf8Decode_encodeChar (c : Char) (rest : List Nat) :
    utf8Decode (utf8EncodeChar c ++ rest) = c :: utf8Decode rest := by
  have hval := char_toNat_valid c
  rw [utf8EncodeChar]
  by_cases h1 : c.toNat < 0x80
  · rw [if_pos h1]
    show utf8Decode (c.toNat :: rest) = c :: utf8Decode rest
    rw [utf8Decode.eq_def]
    dsimp only
    rw [if_pos (by omega : c.toNat ≤ 0x7F)]
    rw [Char.ofNat_toNat]
  · rw [if_neg h1]
    by_cases h2 : c.toNat < 0x800
    · rw [if_pos h2]
      show utf8Decode ((0xC0 + c.toNat / 64) :: (0x80 + c.toNat % 64) :: rest) = _
      rw [utf8Decode.eq_def]
      dsimp only
      rw [if_neg (by omega), if_neg (by omega), if_pos (by omega)]
      rw [if_pos (by constructor <;> omega)]
      have harith : (0xC0 + c.toNat / 64 - 0xC0) * 64 + (0x80 + c.toNat % 64 - 0x80) =
          c.toNat := by omega
      rw [harith, Char.ofNat_toNat]
    · rw [if_neg h2]
      by_cases h3 : c.toNat < 0x10000
      · rw [if_pos h3]
        show utf8Decode ((0xE0 + c.toNat / 4096) :: (0x80 + c.toNat / 64 % 64) ::
          (0x80 + c.toNat % 64) :: rest) = _
        rw [utf8Decode.eq_def]
        dsimp only
        rw [if_neg (by omega), if_neg (by omega), if_neg (by omega), if_pos (by omega)]
        have hcond1 : (if 0xE0 + c.toNat / 4096 = 0xE0 then 0xA0 else 0x80) ≤
            0x80 + c.toNat / 64 % 64 := by
          by_cases he : 0xE0 + c.toNat / 4096 = 0xE0
          · rw [if_pos he]
            omega
          · rw [if_neg he]
            omega
        have hcond2 : 0x80 + c.toNat / 64 % 64 ≤
            (if 0xE0 + c.toNat / 4096 = 0xED then 0x9F else 0xBF) := by
          by_cases he : 0xE0 + c.toNat / 4096 = 0xED
          · rw [if_pos he]
            omega
          · rw [if_neg he]
            omega
        rw [if_pos ⟨hcond1, hcond2⟩]
        rw [if_pos (by constructor <;> omega)]
        have harith : (0xE0 + c.toNat / 4096 - 0xE0) * 4096 +
            (0x80 + c.toNat / 64 % 64 - 0x80) * 64 + (0x80 + c.toNat % 64 - 0x80) =
            c.toNat := by omega
        rw [harith, Char.ofNat_toNat]
      · rw [if_neg h3]
        show utf8Decode ((0xF0 + c.toNat / 262144) :: (0x80 + c.toNat / 4096 % 64) ::
          (0x80 + c.toNat / 64 % 64) :: (0x80 + c.toNat % 64) :: rest) = _
        rw [utf8Decode.eq_def]
        dsimp only
        rw [if_neg (by omega), if_neg (by omega), if_neg (by omega), if_neg (by omega),
          if_pos (by omega)]
        have hcond1 : (if 0xF0 + c.toNat / 262144 = 0xF0 then 0x90 else 0x80) ≤
            0x80 + c.toNat / 4096 % 64 := by
          by_cases he : 0xF0 + c.toNat / 262144 = 0xF0
          · rw [if_pos he]
            omega
          · rw [if_neg he]
            omega
        have hcond2 : 0x80 + c.toNat / 4096 % 64 ≤
            (if 0xF0 + c.toNat / 262144 = 0xF4 then 0x8F else 0xBF) := by
          by_cases he : 0xF0 + c.toNat / 262144 = 0xF4
          · rw [if_pos he]
            omega
          · rw [if_neg he]
            omega
        rw [if_pos ⟨hcond1, hcond2⟩]
        rw [if_pos (by constructor <;> omega)]
        rw [if_pos (by constructor <;> omega)]
        have harith : (0xF0 + c.toNat / 262144 - 0xF0) * 262144 +
            (0x80 + c.toNat / 4096 % 64 - 0x80) * 4096 +
            (0x80 + c.toNat / 64 % 64 - 0x80) * 64 + (0x80 + c.toNat % 64 - 0x80) =
            c.toNat := by omega
        rw [harith, Char.ofNat_toNat]

theorem utf8Decode_encode_append (cs : List Char) (tail : List Nat) :
    utf8Decode (utf8Encode cs ++ tail) = cs ++ utf8Decode tail := by
  induction cs with
  | nil => simp [utf8Encode]
  | cons c t ih =>
    rw [utf8Encode, List.map_cons, List.flatten_cons, List.append_assoc]
    rw [utf8Decode_encodeChar c _]
    rw [show (t.map utf8EncodeChar).flatten = utf8Encode t from rfl, ih]
    rfl

theorem utf8Decode_zeros (m : Nat) :
    utf8Decode (List.replicate m 0) = List.replicate m (Char.ofNat 0) := by
  induction m with
  | zero => rfl
  | succ k ih =>
    rw [List.replicate_succ, List.replicate_succ]
    rw [utf8Decode.eq_def]
    dsimp only
    rw [if_pos (by omega : (0 : Nat) ≤ 0x7F), ih]

theorem hexCharFn_upper_digit : ∀ v, v < 16 →
    hexToBinary ((natToHex v).map Char.toUpper) = jsPadStart (natToBin v) 4 '0' := by
  decide

theorem natToHex_upper_length : ∀ v, v < 16 → ((natToHex v).map Char.toUpper).length = 1 := by
  decide

theorem natToHex_upper_mem : ∀ v, v < 16 →
    ∀ c ∈ (natToHex v).map Char.toUpper, c ∈ uppercaseHexDigits := by
  decide

theorem hexToBinary_append (h1 h2 : List Char) :
    hexToBinary (h1 ++ h2) = hexToBinary h1 ++ hexToBinary h2 := by
  simp [hexToBinary, List.map_append, List.flatten_append]

theorem binaryToHex_ok (bits : List Char) (hb : IsBits bits)
    (h4 : bits.length % 4 = 0) :
    binaryToHex bits = .ok
      (((chunksOf 4 bits).map
        (fun g => (natToHex (bitsVal g)).map Char.toUpper)).flatten) := by
  rw [binaryToHex, if_neg (by omega)]
  obtain ⟨hch1, hch2, hch3⟩ := chunksOf_of_mul 4 (bits.length / 4) (by norm_num) bits
    (by omega)
  have hstep : ∀ g ∈ chunksOf 4 bits,
      (match jsParseInt binDigitVal 2 g with
      | none => ("NaN").toList
      | some v => natToHex v) = natToHex (bitsVal g) := by
    intro g hg
    have hgb : IsBits g := by
      intro c hc
      refine hb c ?_
      rw [← hch2]
      exact List.mem_flatten.mpr ⟨g, hg, hc⟩
    have hgne : g ≠ [] := by
      intro hx
      have := hch1 g hg
      rw [hx] at this
      simp at this
    rw [jsParseInt_bits g hgb hgne]
  rw [List.map_congr_left hstep]
  have hmf : ∀ (L : List (List Char)), (L.flatten).map Char.toUpper =
      (L.map (List.map Char.toUpper)).flatten := by
    intro L
    induction L with
    | nil => rfl
    | cons a t ih =>
      simp only [List.flatten_cons, List.map_append, List.map_cons, ih]
  rw [hmf, List.map_map]
  rfl

theorem hexToBinary_of_binaryToHex (bits : List Char) (hb : IsBits bits)
    (h4 : bits.length % 4 = 0) :
    hexToBinary
      (((chunksOf 4 bits).map
        (fun g => (natToHex (bitsVal g)).map Char.toUpper)).flatten) = bits := by
  obtain ⟨hch1, hch2, hch3⟩ := chunksOf_of_mul 4 (bits.length / 4) (by norm_num) bits
    (by omega)
  have hflat : ∀ L : List (List Char), hexToBinary L.flatten =
      (L.map hexToBinary).flatten := by
    intro L
    induction L with
    | nil => rfl
    | cons a t ih =>
      rw [List.flatten_cons, hexToBinary_append, ih]
      rfl
  rw [hflat, List.map_map]
  have hstep : ∀ g ∈ chunksOf 4 bits,
      (hexToBinary ∘ fun g => (natToHex (bitsVal g)).map Char.toUpper) g = g := by
    intro g hg
    have hgb : IsBits g := by
      intro c hc
      refine hb c ?_
      rw [← hch2]
      exact List.mem_flatten.mpr ⟨g, hg, hc⟩
    have hglen : g.length = 4 := hch1 g hg
    have hgne : g ≠ [] := by
      intro hx
      rw [hx] at hglen
      simp at hglen
    show hexToBinary ((natToHex (bitsVal g)).map Char.toUpper) = g
    rw [hexCharFn_upper_digit (bitsVal g) (by
      have := bitsVal_lt g
      rw [hglen] at this
      norm_num at this
      exact this)]
    have := pad_natToBin_bitsVal g hgb hgne
    rw [hglen] at this
    exact this
  rw [List.map_congr_left hstep]
  simpa using hch2

theorem utf8Encode_byte_lt (s : List Char) : ∀ b ∈ utf8Encode s, b < 256 := by
  intro b hb
  rcases List.mem_flatten.mp hb with ⟨m, hm, hbm⟩
  rcases List.mem_map.mp hm with ⟨c, hc, rfl⟩
  exact utf8EncodeChar_byte_lt c b hbm

theorem bin8_length (b : Nat) (h : b < 256) :
    (jsPadStart (natToBin b) 8 '0').length = 8 := by
  rw [length_jsPadStart]
  have := natToBin_length_le b 8 (by norm_num) (by norm_num; omega)
  omega

theorem replicate_flatten (m k : Nat) (c : Char) :
    (List.replicate m (List.replicate k c)).flatten = List.replicate (m * k) c := by
  induction m with
  | zero => simp
  | succ j ih =>
    rw [List.replicate_succ, List.flatten_cons, ih]
    rw [show (j + 1) * k = k + j * k by ring]
    rw [List.replicate_add]

theorem parse_bin8 (b : Nat) (h : b < 256) :
    (jsParseInt binDigitVal 2 (jsPadStart (natToBin b) 8 '0')).getD 0 % 256 = b := by
  rw [jsParseInt_bits _ (isBits_natToBin_pad b 8) (by
    intro hx
    have := congrArg List.length hx
    rw [bin8_length b h] at this
    simp at this)]
  rw [Option.getD_some, bitsVal_jsPadStart, bitsVal_natToBin]
  omega

theorem binaryToBytes_blocks (B : List Nat) (hB : ∀ b ∈ B, b < 256) (m : Nat) :
    binaryToBytes ((B.map (fun b => jsPadStart (natToBin b) 8 '0')).flatten ++
      List.replicate (8 * m) '0') = B ++ List.replicate m 0 := by
  rw [binaryToBytes]
  have hcomb : (B.map (fun b => jsPadStart (natToBin b) 8 '0')).flatten ++
      List.replicate (8 * m) '0' =
      (B.map (fun b => jsPadStart (natToBin b) 8 '0') ++
        List.replicate m (List.replicate 8 '0')).flatten := by
    rw [List.flatten_append, replicate_flatten]
    rw [show m * 8 = 8 * m by ring]
  rw [hcomb]
  rw [chunksOf_flatten 8 (by norm_num) _ (by
    intro g hg
    rcases List.mem_append.mp hg with h | h
    · rcases List.mem_map.mp h with ⟨b, hb, rfl⟩
      exact bin8_length b (hB b hb)
    · rw [List.eq_of_mem_replicate h]
      simp)]
  rw [List.map_append, List.map_map, List.map_replicate]
  congr 1
  rw [List.map_congr_left (fun b hb => ?_), List.map_id]
  show ((jsParseInt binDigitVal 2 (jsPadStart (natToBin b) 8 '0')).getD 0) % 256 = b
  exact parse_bin8 b (hB b hb)

theorem stringToBinary_structure (T : String) :
    ∃ m, stringToBinary T =
      ((utf8Encode T.data).map (fun b => jsPadStart (natToBin b) 8 '0')).flatten ++
        List.replicate (8 * m) '0' ∧
      (stringToBinary T).length = 8 * (utf8Encode T.data).length + 8 * m ∧
      (stringToBinary T).length % 64 = 0 ∧
      8 * m < 64 ∧
      IsBits (stringToBinary T) := by
  have hblen : (((utf8Encode T.data).map
      (fun b => jsPadStart (natToBin b) 8 '0')).flatten).length =
      (utf8Encode T.data).length * 8 :=
    flatten_map_length _ _ 8 (fun b hb => bin8_length b (utf8Encode_byte_lt T.data b hb))
  set L := (utf8Encode T.data).length * 8 with hL
  have hceil : L ≤ ((L + 63) / 64) * 64 ∧ ((L + 63) / 64) * 64 < L + 64 ∧
      (((L + 63) / 64) * 64) % 64 = 0 := by omega
  have hz8 : (((L + 63) / 64) * 64 - L) % 8 = 0 := by omega
  refine ⟨(((L + 63) / 64) * 64 - L) / 8, ?_, ?_, ?_, ?_, ?_⟩
  · rw [stringToBinary, jsPadEnd, hblen]
    congr 2
    omega
  · rw [stringToBinary, jsPadEnd, List.length_append, List.length_replicate, hblen]
    omega
  · rw [stringToBinary, jsPadEnd, List.length_append, List.length_replicate, hblen]
    omega
  · omega
  · rw [stringToBinary]
    refine isBits_append _ _ ?_ (fun c hc => Or.inl (List.eq_of_mem_replicate hc))
    exact isBits_flatten_map _ _ (fun b hb => isBits_natToBin_pad _ _)

theorem jsPadEnd_self (l : List Char) (h : l.length = 64) :
    jsPadEnd l 64 '0' = l := by
  rw [jsPadEnd, h]
  simp

theorem hexToBinary_char_map (H : List Char) :
    hexToBinary H = (H.map (fun c => hexToBinary [c])).flatten := by
  induction H with
  | nil => rfl
  | cons c t ih =>
    rw [show (c :: t) = [c] ++ t from rfl, hexToBinary_append, ih]
    rfl

theorem hexDigitChars_len4 : ∀ c ∈ hexDigitChars, (hexToBinary [c]).length = 4 := by
  decide

theorem hexDigitChars_bits : ∀ c ∈ hexDigitChars, IsBits (hexToBinary [c]) := by
  decide

theorem hexToBinary_wellformed (H : List Char) (h : ∀ c ∈ H, c ∈ hexDigitChars) :
    IsBits (hexToBinary H) ∧ (hexToBinary H).length = 4 * H.length := by
  rw [hexToBinary_char_map]
  constructor
  · exact isBits_flatten_map _ _ (fun c hc => hexDigitChars_bits c (h c hc))
  · rw [flatten_map_length _ _ 4 (fun c hc => hexDigitChars_len4 c (h c hc))]
    ring

theorem uppercaseHex_sub_hexDigit : ∀ c ∈ uppercaseHexDigits, c ∈ hexDigitChars := by
  decide

theorem createDESCipherText_eq (T : String) (key : List Char)
    (keys : List (List Char)) (hk : getOutPutKeys key = .ok keys) :
    createDESCipherText T key =
      binaryToHex (((chunksOf 64 (stringToBinary T)).map (desBlockSpec keys)).flatten) := by
  obtain ⟨m, hstruct, hlen, hmod, hm, hbits⟩ := stringToBinary_structure T
  obtain ⟨hch1, hch2, hch3⟩ := chunksOf_of_mul 64 ((stringToBinary T).length / 64)
    (by norm_num) (stringToBinary T) (by omega)
  have hchbits : ∀ b ∈ chunksOf 64 (stringToBinary T), IsBits b := by
    intro b hb c hc
    refine hbits c ?_
    rw [← hch2]
    exact List.mem_flatten.mpr ⟨b, hb, hc⟩
  have hpad : (chunksOf 64 (stringToBinary T)).map (fun b => jsPadEnd b 64 '0') =
      chunksOf 64 (stringToBinary T) := by
    rw [List.map_congr_left (fun b hb => jsPadEnd_self b (hch1 b hb))]
    simp
  rw [createDESCipherText, hk]
  simp only [exceptBindOk, hpad,
    mapM_ok _ _ (desBlockSpec keys)
      (fun b hb => desBlock_ok keys b (hchbits b hb) (hch1 b hb))]

theorem encrypted_bits_facts (T : String) (keys : List (List Char)) :
    IsBits (((chunksOf 64 (stringToBinary T)).map (desBlockSpec keys)).flatten) ∧
    (((chunksOf 64 (stringToBinary T)).map (desBlockSpec keys)).flatten).length =
      (chunksOf 64 (stringToBinary T)).length * 64 := by
  obtain ⟨m, hstruct, hlen, hmod, hm, hbits⟩ := stringToBinary_structure T
  obtain ⟨hch1, hch2, hch3⟩ := chunksOf_of_mul 64 ((stringToBinary T).length / 64)
    (by norm_num) (stringToBinary T) (by omega)
  have hchbits : ∀ b ∈ chunksOf 64 (stringToBinary T), IsBits b := by
    intro b hb c hc
    refine hbits c ?_
    rw [← hch2]
    exact List.mem_flatten.mpr ⟨b, hb, hc⟩
  constructor
  · refine isBits_flatten_map _ _ ?_
    intro b hb
    exact (desBlockSpec_facts keys b (hchbits b hb) (hch1 b hb)).2
  · exact flatten_map_length _ _ 64
      (fun b hb => (desBlockSpec_facts keys b (hchbits b hb) (hch1 b hb)).1)

theorem createDESPlainBits_ok (H : List Char) (key : List Char)
    (keys : List (List Char)) (hk : getOutPutKeys key = .ok keys)
    (hbitsb : IsBits (hexToBinary H)) (hlen : (hexToBinary H).length % 64 = 0) :
    createDESPlainBits H key =
      .ok (((chunksOf 64 (hexToBinary H)).map (desBlockSpec keys.reverse)).flatten) := by
  obtain ⟨hch1, hch2, hch3⟩ := chunksOf_of_mul 64 ((hexToBinary H).length / 64)
    (by norm_num) (hexToBinary H) (by omega)
  have hchbits : ∀ b ∈ chunksOf 64 (hexToBinary H), IsBits b := by
    intro b hb c hc
    refine hbitsb c ?_
    rw [← hch2]
    exact List.mem_flatten.mpr ⟨b, hb, hc⟩
  rw [createDESPlainBits, hk]
  simp only [exceptBindOk,
    mapM_ok _ _ (desBlockSpec keys.reverse)
      (fun b hb => desBlock_ok keys.reverse b (hchbits b hb) (hch1 b hb))]
  rfl

theorem roundtrip_core (K T : String) (hne : K.data ≠ [])
    (hascii : ∀ c ∈ K.data, c.toNat ≤ 127) :
    ∃ hex pt, getDESCipherText T K = .ok hex ∧ getDESPlainText hex K = .ok pt ∧
      pt.data = T.data ++
        List.replicate ((8 - (utf8Encode T.data).length % 8) % 8) (Char.ofNat 0) := by
  obtain ⟨keys, hk, hk16, hkprop⟩ := getOutPutKeys_ok K.data hne hascii
  obtain ⟨m, hstruct, hlen, hmod, hm, hbits⟩ := stringToBinary_structure T
  obtain ⟨hch1, hch2, hch3⟩ := chunksOf_of_mul 64 ((stringToBinary T).length / 64)
    (by norm_num) (stringToBinary T) (by omega)
  have hchbits : ∀ b ∈ chunksOf 64 (stringToBinary T), IsBits b := by
    intro b hb c hc
    refine hbits c ?_
    rw [← hch2]
    exact List.mem_flatten.mpr ⟨b, hb, hc⟩
  obtain ⟨houtbits, houtlen⟩ := encrypted_bits_facts T keys
  set outBits := ((chunksOf 64 (stringToBinary T)).map (desBlockSpec keys)).flatten
    with houtdef
  have henc := createDESCipherText_eq T K.data keys hk
  have hhex := binaryToHex_ok outBits houtbits (by omega)
  set hex := ((chunksOf 4 outBits).map
    (fun g => (natToHex (bitsVal g)).map Char.toUpper)).flatten with hhexdef
  have hhexbin : hexToBinary hex = outBits :=
    hexToBinary_of_binaryToHex outBits houtbits (by omega)
  have hptdata : binaryToString (((chunksOf 64 (hexToBinary hex)).map
      (desBlockSpec keys.reverse)).flatten) = T.data ++
      List.replicate ((8 - (utf8Encode T.data).length % 8) % 8) (Char.ofNat 0) := by
    rw [hhexbin]
    have hchunks_out : chunksOf 64 outBits =
        (chunksOf 64 (stringToBinary T)).map (desBlockSpec keys) := by
      rw [houtdef]
      refine chunksOf_flatten 64 (by norm_num) _ ?_
      intro b hb
      rcases List.mem_map.mp hb with ⟨g, hg, rfl⟩
      exact (desBlockSpec_facts keys g (hchbits g hg) (hch1 g hg)).1
    rw [hchunks_out, List.map_map]
    have hinvmap : ((chunksOf 64 (stringToBinary T)).map
        (desBlockSpec keys.reverse ∘ desBlockSpec keys)) =
        chunksOf 64 (stringToBinary T) := by
      rw [List.map_congr_left (fun b hb => ?_)]
      · exact List.map_id _
      · show desBlockSpec keys.reverse (desBlockSpec keys b) = b
        exact desBlockSpec_inverse keys b (hchbits b hb) (hch1 b hb)
    rw [hinvmap, hch2]
    rw [binaryToString, hstruct]
    rw [binaryToBytes_blocks (utf8Encode T.data) (utf8Encode_byte_lt T.data) m]
    rw [utf8Decode_encode_append, utf8Decode_zeros]
    congr 2
    omega
  refine ⟨String.mk hex, String.mk (T.data ++
    List.replicate ((8 - (utf8Encode T.data).length % 8) % 8) (Char.ofNat 0)),
    ?_, ?_, rfl⟩
  · show (createDESCipherText T K.data).map (fun l => String.mk l) = _
    rw [henc, hhex]
    rfl
  · show (createDESPlainText (String.mk hex).data K.data).map (fun l => String.mk l) = _
    have hdec := createDESPlainBits_ok hex K.data keys hk
      (by rw [hhexbin]; exact houtbits) (by rw [hhexbin]; omega)
    rw [show (String.mk hex).data = hex from rfl]
    rw [createDESPlainText, hdec]
    show Except.ok (String.mk (binaryToString _)) = _
    rw [hptdata]

theorem hexDigitVal_getD_lt (c : Char) : (hexDigitVal c).getD 0 < 16 := by
  rw [hexDigitVal]
  split
  · next h => simp only [Option.getD_some]; omega
  · split
    · next h => simp only [Option.getD_some]; omega
    · split
      · next h => simp only [Option.getD_some]; omega
      · simp

theorem jsParseInt_singleton (c : Char) :
    jsParseInt hexDigitVal 16 [c] =
      if (hexDigitVal c).isSome then some ((hexDigitVal c).getD 0) else none := by
  rw [jsParseInt]
  rcases h : hexDigitVal c with _ | v
  · simp [List.takeWhile_cons, h]
  · simp [List.takeWhile_cons, h, List.foldl_cons]

theorem hexToBinary_length (s : List Char) : (hexToBinary s).length = 4 * s.length := by
  rw [hexToBinary]
  rw [flatten_map_length s _ 4 ?_]
  · ring
  · intro c hc
    rcases h : jsParseInt hexDigitVal 16 [c] with _ | v
    · simp only []
      rw [length_jsPadStart]
      rfl
    · simp only []
      rw [jsParseInt_singleton] at h
      by_cases hs : (hexDigitVal c).isSome
      · rw [if_pos hs] at h
        have hv : v < 16 := by
          have := hexDigitVal_getD_lt c
          have hveq : v = (hexDigitVal c).getD 0 := by
            injection h with h2
            omega
          omega
        rw [length_jsPadStart]
        have := natToBin_length_le v 4 (by norm_num) (by omega)
        omega
      · rw [if_neg hs] at h
        cases h

theorem jsPadEnd_key (input : List Char) (h : input.length % 8 ≠ 0) :
    jsPadEnd input (((input.length + 7) / 8) * 8) '0' =
      input ++ List.replicate (8 - input.length % 8) '0' := by
  rw [jsPadEnd]
  congr 2
  omega

theorem jsPadEnd_key_padded (input : List Char) (d : Nat)
    (h : (input.length + d) % 8 = 0) :
    jsPadEnd (input ++ List.replicate d '0')
      ((((input ++ List.replicate d '0').length + 7) / 8) * 8) '0' =
      input ++ List.replicate d '0' := by
  rw [jsPadEnd]
  have hlen : (input ++ List.replicate d '0').length = input.length + d := by
    rw [List.length_append, List.length_replicate]
  rw [hlen]
  have : (input.length + d + 7) / 8 * 8 - (input.length + d) = 0 := by omega
  rw [this]
  simp

theorem processKey_pad (input : List Char) (h : input.length % 8 ≠ 0) :
    processKey input =
      processKey (input ++ List.replicate (8 - input.length % 8) '0') := by
  rw [processKey, processKey, jsPadEnd_key input h,
    jsPadEnd_key_padded input (8 - input.length % 8) (by omega)]

theorem getOutPutKeys_pad (input : List Char) (h : input.length % 8 ≠ 0) :
    getOutPutKeys input =
      getOutPutKeys (input ++ List.replicate (8 - input.length % 8) '0') := by
  rw [getOutPutKeys, getOutPutKeys, outPutKeys, outPutKeys, processKey_pad input h]

/-! ## The claims -/

/-- C2, counterexample: the key padding character is the digit zero (code
point 48), not the null character (code point 0).  Padding the one-character
key A with seven digit zeros reproduces its derived 64-bit key, while padding
it with seven null characters yields a different one, so the claimed
null-character padding is not what the code does. -/
theorem c2_pad_null_counterexample :
    processKey (("A").data) = processKey (("A0000000").data) ∧
    processKey (("A").data) ≠
      processKey (("A").data ++ List.replicate 7 (Char.ofNat 0)) := by
  constructor
  · decide
  · decide

/-- C2, amended: a key whose length is not a multiple of 8 is padded on the
right with the character digit zero (code point 48) to the next multiple of
8 before being split into 8-character chunks; the padded key derives the
same 64-bit key. -/
theorem c2_pad_with_digit_zero (K : String) (h : K.data.length % 8 ≠ 0) :
    jsPadEnd K.data (((K.data.length + 7) / 8) * 8) '0' =
      K.data ++ List.replicate (8 - K.data.length % 8) '0' ∧
    '0' = Char.ofNat 48 ∧
    processKey K.data =
      processKey (K.data ++ List.replicate (8 - K.data.length % 8) '0') := by
  exact ⟨jsPadEnd_key K.data h, rfl, processKey_pad K.data h⟩

theorem c2_pad_with_digit_zero_witness :
    jsPadEnd (("A").data) (((("A").data.length + 7) / 8) * 8) '0' =
      ("A").data ++ List.replicate (8 - ("A").data.length % 8) '0' ∧
    '0' = Char.ofNat 48 ∧
    processKey (("A").data) =
      processKey (("A").data ++ List.replicate (8 - ("A").data.length % 8) '0') :=
  c2_pad_with_digit_zero ("A") (by decide)

/-- C9: a key whose length is not a multiple of 8 derives exactly the same
round-key schedule as the same key right-padded with digit-zero characters
to the next multiple of 8, and consequently encrypts every plaintext
identically; in particular the keys A and A0000000 are interchangeable. -/
theorem c9_digit_zero_padding_equivalence (K T : String)
    (h : K.length % 8 ≠ 0) :
    getOutPutKeys K.data =
      getOutPutKeys (K.data ++ List.replicate (8 - K.length % 8) '0') ∧
    getDESCipherText T K =
      getDESCipherText T (String.mk (K.data ++ List.replicate (8 - K.length % 8) '0')) := by
  have hk := getOutPutKeys_pad K.data h
  refine ⟨hk, ?_⟩
  show (createDESCipherText T K.data).map _ = (createDESCipherText T _).map _
  rw [createDESCipherText, createDESCipherText]
  rw [show (String.mk (K.data ++ List.replicate (8 - K.length % 8) '0')).data =
    K.data ++ List.replicate (8 - K.length % 8) '0' from rfl]
  rw [hk]
  rfl

theorem c9_digit_zero_padding_equivalence_witness :
    (getOutPutKeys (("A").data) =
      getOutPutKeys (("A").data ++ List.replicate (8 - ("A").length % 8) '0') ∧
    getDESCipherText ("x") ("A") =
      getDESCipherText ("x")
        (String.mk (("A").data ++ List.replicate (8 - ("A").length % 8) '0'))) ∧
    String.mk (("A").data ++ List.replicate (8 - ("A").length % 8) '0') =
      ("A0000000") :=
  ⟨c9_digit_zero_padding_equivalence ("A") ("x") (by decide), by decide⟩

/-- C10: encrypting the empty plaintext under any valid key yields zero
64-bit blocks, no error, and the empty ciphertext. -/
theorem c10_empty_plaintext (K : String) (hne : K.data ≠ [])
    (hascii : ∀ c ∈ K.data, c.toNat ≤ 127) :
    getDESCipherText ("") K = .ok ("") := by
  obtain ⟨keys, hk, _, _⟩ := getOutPutKeys_ok K.data hne hascii
  show (createDESCipherText ("") K.data).map (fun l => String.mk l) = _
  rw [createDESCipherText, hk]
  rfl

theorem c10_empty_plaintext_witness : getDESCipherText ("") ("A") = .ok ("") :=
  c10_empty_plaintext ("A") (by decide) (by decide)

/-- C5, counterexample: a 33-character key is accepted by the cipher core:
encryption succeeds and returns a ciphertext, contradicting the claim that
keys longer than 32 characters fail with a validation error (that length
check lives only in the user-interface layer, not in the core). -/
theorem c5_long_key_counterexample :
    (String.mk (List.replicate 33 'A')).length = 33 ∧
    ∃ hex, getDESCipherText ("x") (String.mk (List.replicate 33 'A')) = .ok hex := by
  refine ⟨by decide, ?_⟩
  obtain ⟨hex, pt, he, _, _⟩ := roundtrip_core (String.mk (List.replicate 33 'A')) ("x")
    (by decide) (by decide)
  exact ⟨hex, he⟩

/-- C5, amended: encryption succeeds exactly for a nonempty key whose
characters all have code points at most 127.  The only validation error the
core raises is the ASCII check; an empty key instead crashes with a
TypeError (reading an index of `undefined`), and over-long keys are simply
accepted. -/
theorem c5_key_validation (T K : String) :
    ((∃ hex, getDESCipherText T K = .ok hex) ↔
      (K.data ≠ [] ∧ ∀ c ∈ K.data, c.toNat ≤ 127)) ∧
    (K.data = [] → getDESCipherText T K = .error .typeError) ∧
    ((∃ c ∈ K.data, 127 < c.toNat) → getDESCipherText T K = .error .nonAscii) := by
  have hempty : K.data = [] → getDESCipherText T K = .error .typeError := by
    intro h
    show (createDESCipherText T K.data).map _ = _
    rw [h, createDESCipherText, getOutPutKeys_empty]
    rfl
  have hbad : (∃ c ∈ K.data, 127 < c.toNat) →
      getDESCipherText T K = .error .nonAscii := by
    intro h
    show (createDESCipherText T K.data).map _ = _
    rw [createDESCipherText, getOutPutKeys_error K.data h]
    rfl
  refine ⟨⟨?_, ?_⟩, hempty, hbad⟩
  · rintro ⟨hex, hh⟩
    constructor
    · intro hx
      rw [hempty hx] at hh
      cases hh
    · by_contra hx
      push_neg at hx
      rcases hx with ⟨c, hc, hcb⟩
      rw [hbad ⟨c, hc, by omega⟩] at hh
      cases hh
  · rintro ⟨hne, hascii⟩
    obtain ⟨hex, pt, he, _, _⟩ := roundtrip_core K T hne hascii
    exact ⟨hex, he⟩

/-- C7: for every plaintext and valid key, encryption returns a string of
uppercase hexadecimal digits whose length is the zero-padded bit length of
the plaintext (the length of `stringToBinary`) divided by 4, a multiple of
16. -/
theorem c7_hex_output_shape (T K : String) (hne : K.data ≠ [])
    (hascii : ∀ c ∈ K.data, c.toNat ≤ 127) :
    ∃ hex, getDESCipherText T K = .ok hex ∧
      hex.length = (stringToBinary T).length / 4 ∧
      hex.length % 16 = 0 ∧
      ∀ c ∈ hex.data, c ∈ uppercaseHexDigits := by
  obtain ⟨keys, hk, hk16, hkprop⟩ := getOutPutKeys_ok K.data hne hascii
  obtain ⟨m, hstruct, hlen, hmod, hm, hbits⟩ := stringToBinary_structure T
  obtain ⟨houtbits, houtlen⟩ := encrypted_bits_facts T keys
  obtain ⟨hch1, hch2, hch3⟩ := chunksOf_of_mul 64 ((stringToBinary T).length / 64)
    (by norm_num) (stringToBinary T) (by omega)
  set outBits := ((chunksOf 64 (stringToBinary T)).map (desBlockSpec keys)).flatten
    with houtdef
  have houtlen2 : outBits.length = (stringToBinary T).length := by
    rw [houtlen, hch3]
    omega
  have henc := createDESCipherText_eq T K.data keys hk
  have hhex := binaryToHex_ok outBits houtbits (by omega)
  obtain ⟨hc41, hc42, hc43⟩ := chunksOf_of_mul 4 (outBits.length / 4) (by norm_num)
    outBits (by omega)
  have hdigitlen : ∀ g ∈ chunksOf 4 outBits,
      ((natToHex (bitsVal g)).map Char.toUpper).length = 1 := by
    intro g hg
    refine natToHex_upper_length (bitsVal g) ?_
    have := bitsVal_lt g
    rw [hc41 g hg] at this
    norm_num at this
    exact this
  refine ⟨String.mk (((chunksOf 4 outBits).map
    (fun g => (natToHex (bitsVal g)).map Char.toUpper)).flatten), ?_, ?_, ?_, ?_⟩
  · show (createDESCipherText T K.data).map _ = _
    rw [henc, hhex]
    rfl
  · show (((chunksOf 4 outBits).map
      (fun g => (natToHex (bitsVal g)).map Char.toUpper)).flatten).length = _
    rw [flatten_map_length _ _ 1 hdigitlen, hc43]
    omega
  · show (((chunksOf 4 outBits).map
      (fun g => (natToHex (bitsVal g)).map Char.toUpper)).flatten).length % 16 = 0
    rw [flatten_map_length _ _ 1 hdigitlen, hc43]
    omega
  · intro c hc
    rcases List.mem_flatten.mp hc with ⟨l, hl, hcl⟩
    rcases List.mem_map.mp hl with ⟨g, hg, rfl⟩
    refine natToHex_upper_mem (bitsVal g) ?_ c hcl
    have := bitsVal_lt g
    rw [hc41 g hg] at this
    norm_num at this
    exact this

theorem c7_hex_output_shape_witness :
    ∃ hex, getDESCipherText ("x") ("A") = .ok hex ∧
      hex.length = (stringToBinary ("x")).length / 4 ∧
      hex.length % 16 = 0 ∧
      ∀ c ∈ hex.data, c ∈ uppercaseHexDigits :=
  c7_hex_output_shape ("x") ("A") (by decide) (by decide)

/-- C1: decrypting the encryption of any text T under any ASCII key of 1 to
32 characters returns T followed exactly by the zero bytes added by the
64-bit block padding (which decryption does not strip); when the UTF-8 byte
length of T is a multiple of 8 no padding is added and T is reproduced
exactly. -/
theorem c1_roundtrip_zero_padding (K T : String) (hlen1 : 1 ≤ K.length)
    (hlen2 : K.length ≤ 32) (hascii : ∀ c ∈ K.data, c.toNat ≤ 127) :
    ∃ hex pt, getDESCipherText T K = .ok hex ∧ getDESPlainText hex K = .ok pt ∧
      pt.data = T.data ++
        List.replicate ((8 - (utf8Encode T.data).length % 8) % 8) (Char.ofNat 0) ∧
      ((utf8Encode T.data).length % 8 = 0 → pt = T) := by
  have hne : K.data ≠ [] := by
    intro hx
    have : K.length = 0 := by
      show K.data.length = 0
      rw [hx]
      rfl
    omega
  obtain ⟨hex, pt, he, hd, hp⟩ := roundtrip_core K T hne hascii
  refine ⟨hex, pt, he, hd, hp, ?_⟩
  intro h8
  have hz : (8 - (utf8Encode T.data).length % 8) % 8 = 0 := by omega
  rw [hz] at hp
  simp only [List.replicate_zero, List.append_nil] at hp
  exact String.ext hp

theorem c1_roundtrip_zero_padding_witness :
    ∃ hex pt, getDESCipherText ("") ("A") = .ok hex ∧
      getDESPlainText hex ("A") = .ok pt ∧
      pt.data = ("").data ++
        List.replicate ((8 - (utf8Encode ("").data).length % 8) % 8) (Char.ofNat 0) ∧
      ((utf8Encode ("").data).length % 8 = 0 → pt = ("")) :=
  c1_roundtrip_zero_padding ("A") ("") (by decide) (by decide) (by decide)

theorem charKeyBits_seven (c : Char) (h : c.toNat ≤ 127) :
    (charKeyBits c).take 7 = jsPadStart (natToBin c.toNat) 7 '0' := by
  rw [charKeyBits]
  have hnb : (natToBin c.toNat).length ≤ 7 :=
    natToBin_length_le c.toNat 7 (by norm_num) (by norm_num; omega)
  have hpadlen : (jsPadStart (natToBin c.toNat) 8 '0').length = 8 := by
    rw [length_jsPadStart]
    omega
  rw [hpadlen]
  show ((jsPadStart (natToBin c.toNat) 8 '0').drop 1 ++ _).take 7 = _
  have hdroplen : ((jsPadStart (natToBin c.toNat) 8 '0').drop 1).length = 7 := by
    rw [List.length_drop, hpadlen]
  rw [List.take_append_of_le_length (by omega), List.take_of_length_le (by omega)]
  rw [jsPadStart, jsPadStart]
  rw [List.drop_append_of_le_length (by
    rw [List.length_replicate]
    omega)]
  rw [List.drop_replicate]
  have h17 : 8 - (natToBin c.toNat).length - 1 = 7 - (natToBin c.toNat).length := by
    omega
  rw [h17]

theorem charKeyBits_parity_odd (c : Char) :
    ((charKeyBits c).filter (fun bit => bit = '1')).length % 2 = 1 := by
  rw [charKeyBits, List.filter_append, List.length_append, calculateParityBit]
  by_cases h : (((jsPadStart (natToBin c.toNat) 8 '0').drop
      ((jsPadStart (natToBin c.toNat) 8 '0').length - 7)).filter
      (fun bit => bit = '1')).length % 2 = 0
  · rw [if_pos h, List.filter_singleton]
    simp
    omega
  · rw [if_neg h, List.filter_singleton]
    simp
    omega

/-- C8: each 8-character chunk of the (padded) key is encoded character by
character as the 7 low-order bits of the code point followed by a parity bit
making the number of set bits in the byte odd, giving one 64-bit value per
chunk, and the derived key is the XOR of all chunk values. -/
theorem c8_key_chunk_encoding (K : String) (hne : K.data ≠ [])
    (hascii : ∀ c ∈ K.data, c.toNat ≤ 127) :
    (∀ c : Char, c.toNat ≤ 127 →
      (charKeyBits c).length = 8 ∧
      bitsVal ((charKeyBits c).take 7) = c.toNat % 128 ∧
      ((charKeyBits c).filter (fun bit => bit = '1')).length % 2 = 1) ∧
    (∀ chunk : List Char, chunk.length = 8 → (∀ c ∈ chunk, c.toNat ≤ 127) →
      generate64BitKey chunk = .ok ((chunk.map charKeyBits).flatten) ∧
      ((chunk.map charKeyBits).flatten).length = 64) ∧
    ∃ k0 ks, (chunksOf 8 (jsPadEnd K.data (((K.data.length + 7) / 8) * 8) '0')).map
        (fun ch => (ch.map charKeyBits).flatten) = k0 :: ks ∧
      processKey K.data = .ok (some (ks.foldl xorBinaryKeys k0)) := by
  refine ⟨?_, ?_, ?_⟩
  · intro c hc
    refine ⟨charKeyBits_length c hc, ?_, charKeyBits_parity_odd c⟩
    rw [charKeyBits_seven c hc, bitsVal_jsPadStart, bitsVal_natToBin]
    omega
  · intro chunk hl ha
    refine ⟨generate64BitKey_ok chunk hl ha, ?_⟩
    rw [flatten_map_length chunk charKeyBits 8
      (fun c hc => charKeyBits_length c (ha c hc)), hl]
  · have hlen1 : 1 ≤ K.data.length := by
      rcases hx : K.data with _ | _
      · exact absurd hx hne
      · simp
    have htarget : K.data.length ≤ ((K.data.length + 7) / 8) * 8 := by omega
    have hpadlen : (jsPadEnd K.data (((K.data.length + 7) / 8) * 8) '0').length =
        8 * ((K.data.length + 7) / 8) := by
      rw [jsPadEnd, List.length_append, List.length_replicate]
      omega
    have hpadascii : ∀ c ∈ jsPadEnd K.data (((K.data.length + 7) / 8) * 8) '0',
        c.toNat ≤ 127 := by
      intro c hc
      rcases List.mem_append.mp hc with h | h
      · exact hascii c h
      · rw [List.eq_of_mem_replicate h]
        decide
    obtain ⟨hch1, hch2, hch3⟩ := chunksOf_of_mul 8 ((K.data.length + 7) / 8)
      (by norm_num) _ hpadlen
    have hchascii : ∀ ch ∈ chunksOf 8 (jsPadEnd K.data (((K.data.length + 7) / 8) * 8) '0'),
        ∀ c ∈ ch, c.toNat ≤ 127 := by
      intro ch hch c hc
      refine hpadascii c ?_
      rw [← hch2]
      exact List.mem_flatten.mpr ⟨ch, hch, hc⟩
    have hmap := mapM_ok (chunksOf 8 (jsPadEnd K.data (((K.data.length + 7) / 8) * 8) '0'))
      generate64BitKey (fun ch => (ch.map charKeyBits).flatten)
      (fun ch hch => generate64BitKey_ok ch (hch1 ch hch) (hchascii ch hch))
    have hchne : chunksOf 8 (jsPadEnd K.data (((K.data.length + 7) / 8) * 8) '0') ≠ [] := by
      intro hx
      rw [hx] at hch3
      simp only [List.length_nil] at hch3
      omega
    rcases hchlist : chunksOf 8 (jsPadEnd K.data (((K.data.length + 7) / 8) * 8) '0') with
      _ | ⟨ch0, cht⟩
    · exact absurd hchlist hchne
    · refine ⟨(ch0.map charKeyBits).flatten,
        cht.map (fun ch => (ch.map charKeyBits).flatten), by rw [List.map_cons], ?_⟩
      rw [processKey]
      rw [hchlist] at hmap
      simp only [hchlist, hmap, exceptBindOk]
      rfl

theorem c8_key_chunk_encoding_witness :
    ((∀ c : Char, c.toNat ≤ 127 →
      (charKeyBits c).length = 8 ∧
      bitsVal ((charKeyBits c).take 7) = c.toNat % 128 ∧
      ((charKeyBits c).filter (fun bit => bit = '1')).length % 2 = 1) ∧
    (∀ chunk : List Char, chunk.length = 8 → (∀ c ∈ chunk, c.toNat ≤ 127) →
      generate64BitKey chunk = .ok ((chunk.map charKeyBits).flatten) ∧
      ((chunk.map charKeyBits).flatten).length = 64) ∧
    ∃ k0 ks, (chunksOf 8 (jsPadEnd (("AB").data)
        ((((("AB").data).length + 7) / 8) * 8) '0')).map
        (fun ch => (ch.map charKeyBits).flatten) = k0 :: ks ∧
      processKey (("AB").data) = .ok (some (ks.foldl xorBinaryKeys k0))) :=
  c8_key_chunk_encoding ("AB") (by decide) (by decide)

/-- C6: one cipher round maps (L, R) with round key K to
(R, L XOR P-box(S-box(expand(R) XOR K))); encryption folds the 16 round keys
over each block in index order 0..15 and decryption folds the identical keys
in index order 15..0 (the reversed list), each followed by a final swap of
the halves and the inverse initial permutation, as exhibited by
`desBlockSpec`. -/
theorem c6_round_structure (T K : String) (hne : K.data ≠ [])
    (hascii : ∀ c ∈ K.data, c.toNat ≤ 127) :
    ∃ keys, getOutPutKeys K.data = .ok keys ∧ keys.length = 16 ∧
      (∀ k L R, IsBits R → R.length = 32 →
        feistelRound (L, R) k = .ok (R, xorBinaryStrings L
          (rangeBits (sBoxPure (xorBinaryStrings (ePure R) k 48)) P_TRANSFORM 32) 32)) ∧
      createDESCipherText T K.data =
        binaryToHex (((chunksOf 64 (stringToBinary T)).map (desBlockSpec keys)).flatten) ∧
      (∀ H : List Char, (∀ c ∈ H, c ∈ hexDigitChars) → H.length % 16 = 0 →
        createDESPlainText H K.data = .ok (binaryToString
          (((chunksOf 64 (hexToBinary H)).map (desBlockSpec keys.reverse)).flatten))) := by
  obtain ⟨keys, hk, hk16, hkprop⟩ := getOutPutKeys_ok K.data hne hascii
  refine ⟨keys, hk, hk16, ?_, createDESCipherText_eq T K.data keys hk, ?_⟩
  · intro k L R hRb hRl
    exact feistelRound_ok (L, R) k hRb hRl
  · intro H hhex hlen
    obtain ⟨hb, hl⟩ := hexToBinary_wellformed H hhex
    have hdec := createDESPlainBits_ok H K.data keys hk hb (by omega)
    rw [createDESPlainText, hdec]
    rfl

theorem c6_round_structure_witness :
    ∃ keys, getOutPutKeys (("A").data) = .ok keys ∧ keys.length = 16 ∧
      (∀ k L R, IsBits R → R.length = 32 →
        feistelRound (L, R) k = .ok (R, xorBinaryStrings L
          (rangeBits (sBoxPure (xorBinaryStrings (ePure R) k 48)) P_TRANSFORM 32) 32)) ∧
      createDESCipherText ("x") (("A").data) =
        binaryToHex (((chunksOf 64 (stringToBinary ("x"))).map
          (desBlockSpec keys)).flatten) ∧
      (∀ H : List Char, (∀ c ∈ H, c ∈ hexDigitChars) → H.length % 16 = 0 →
        createDESPlainText H (("A").data) = .ok (binaryToString
          (((chunksOf 64 (hexToBinary H)).map (desBlockSpec keys.reverse)).flatten))) :=
  c6_round_structure ("x") ("A") (by decide) (by decide)

set_option maxRecDepth 40000 in
/-- C3, counterexample: decryption performs no hex validation and raises no
format error.  `hexToBinary` maps each non-hex character to the four
characters 0NaN, the malformed input proceeds into the per-block cipher
computation (initial permutation and split), and the failure observed is
the generic splitBinary 64-bit length error - the very same error a
perfectly hex-formatted input of the wrong length produces - not a
distinguishable format error raised before cipher computation. -/
theorem c3_no_format_error_counterexample :
    hexToBinary (("not-hex!!").data) =
      ("0NaN0NaN0NaN0NaN0NaN11100NaN0NaN0NaN").data ∧
    getDESPlainText ("not-hex!!") ("A") = .error .splitInput ∧
    getDESPlainText ("AB") ("A") = .error .splitInput := by
  refine ⟨by decide, by decide, by decide⟩

set_option maxRecDepth 40000 in
/-- C3, amended: `hexToBinary` is total (four output characters per input
character, whatever the character), so decryption of a malformed hex string
performs no format check: for every valid key, decrypting the malformed
input not-hex!! enters block processing and fails there with the generic
splitBinary length error. -/
theorem c3_malformed_hex_generic_error (K : String) (hne : K.data ≠ [])
    (hascii : ∀ c ∈ K.data, c.toNat ≤ 127) :
    (∀ s : List Char, (hexToBinary s).length = 4 * s.length) ∧
    getDESPlainText ("not-hex!!") K = .error .splitInput := by
  refine ⟨hexToBinary_length, ?_⟩
  obtain ⟨keys, hk, _, _⟩ := getOutPutKeys_ok K.data hne hascii
  have hdb : desBlock keys.reverse (hexToBinary (("not-hex!!")).data) =
      .error .splitInput := by
    rw [desBlock]
    rw [show splitBinary (rangeBits (hexToBinary (("not-hex!!")).data) IP 64) =
      Except.error DESError.splitInput from by
        rw [splitBinary, if_pos (by decide)]]
    rfl
  have hblocks : chunksOf 64 (hexToBinary (("not-hex!!")).data) =
      [hexToBinary (("not-hex!!")).data] := by decide
  show (createDESPlainText (("not-hex!!")).data K.data).map _ = _
  rw [createDESPlainText, createDESPlainBits, hk]
  simp only [exceptBindOk, hblocks, List.mapM_cons, hdb]
  rfl

theorem c3_malformed_hex_generic_error_witness :
    (∀ s : List Char, (hexToBinary s).length = 4 * s.length) ∧
    getDESPlainText ("not-hex!!") ("A") = .error .splitInput :=
  c3_malformed_hex_generic_error ("A") (by decide) (by decide)

/-! Concrete evaluation of one DES block under the key A, used by the C4
counterexample: the block of 64 one bits encrypts to the ciphertext hex
97D564CE06D48DF5, so that ciphertext decrypts to eight 0xFF bytes. -/

def c4KeysA : List (List Char) :=
  [(("111000000011011001110110000000000000000000000000").data),
   (("011000001111011001110110000000000000000010000000").data),
   (("111001001101010101110010000000000000000000000001").data),
   (("111001101100001101110011000000100000000000000000").data),
   (("101011111101001100010011000000000000000100000000").data),
   (("001011110001001111011011000000000000000000000000").data),
   (("001111110101000011011001010000000000000000000000").data),
   (("000111110100100111011000000000000000000000001000").data),
   (("000101110110100111011001000000000000010000000000").data),
   (("000111110110110110000101000010000000000000000000").data),
   (("010110110010110110001101000000000100000000000000").data),
   (("010110011010010010101101000000000000000000000000").data),
   (("110100011000110010101110100000000000000000000000").data),
   (("111100001010101010100110000000000000001000000000").data),
   (("101100001011111000100110000100000000000000000000").data),
   (("111000001011111001000110000000000000000000000100").data)]

set_option maxRecDepth 40000 in
theorem c4_keysA : getOutPutKeys (("A").data) = .ok c4KeysA := by decide

set_option maxRecDepth 40000 in
theorem c4_round0 : desRound (("111000000011011001110110000000000000000000000000").data)
    ((("11111111111111111111111111111111").data), (("11111111111111111111111111111111").data)) =
    ((("11111111111111111111111111111111").data), (("10000011101011010100011001110110").data)) := by decide

set_option maxRecDepth 40000 in
theorem c4_round1 : desRound (("011000001111011001110110000000000000000010000000").data)
    ((("11111111111111111111111111111111").data), (("10000011101011010100011001110110").data)) =
    ((("10000011101011010100011001110110").data), (("00110010100111111110110101100010").data)) := by decide

set_option maxRecDepth 40000 in
theorem c4_round2 : desRound (("111001001101010101110010000000000000000000000001").data)
    ((("10000011101011010100011001110110").data), (("00110010100111111110110101100010").data)) =
    ((("00110010100111111110110101100010").data), (("11101001000100001110101101011000").data)) := by decide

set_option maxRecDepth 40000 in
theorem c4_round3 : desRound (("111001101100001101110011000000100000000000000000").data)
    ((("00110010100111111110110101100010").data), (("11101001000100001110101101011000").data)) =
    ((("11101001000100001110101101011000").data), (("01101111011001000010011101010110").data)) := by decide

set_option maxRecDepth 40000 in
theorem c4_round4 : desRound (("101011111101001100010011000000000000000100000000").data)
    ((("11101001000100001110101101011000").data), (("01101111011001000010011101010110").data)) =
    ((("01101111011001000010011101010110").data), (("11110101110011111110111000111001").data)) := by decide

set_option maxRecDepth 40000 in
theorem c4_round5 : desRound (("001011110001001111011011000000000000000000000000").data)
    ((("01101111011001000010011101010110").data), (("11110101110011111110111000111001").data)) =
    ((("11110101110011111110111000111001").data), (("01000101001100010001000000111100").data)) := by decide

set_option maxRecDepth 40000 in
theorem c4_round6 : desRound (("001111110101000011011001010000000000000000000000").data)
    ((("11110101110011111110111000111001").data), (("01000101001100010001000000111100").data)) =
    ((("01000101001100010001000000111100").data), (("01001010100101000001001100011001").data)) := by decide

set_option maxRecDepth 40000 in
theorem c4_round7 : desRound (("000111110100100111011000000000000000000000001000").data)
    ((("01000101001100010001000000111100").data), (("01001010100101000001001100011001").data)) =
    ((("01001010100101000001001100011001").data), (("11000110111111100110111101100011").data)) := by decide

set_option maxRecDepth 40000 in
theorem c4_round8 : desRound (("000101110110100111011001000000000000010000000000").data)
    ((("01001010100101000001001100011001").data), (("11000110111111100110111101100011").data)) =
    ((("11000110111111100110111101100011").data), (("01110101101100011111000100001000").data)) := by decide

set_option maxRecDepth 40000 in
theorem c4_round9 : desRound (("000111110110110110000101000010000000000000000000").data)
    ((("11000110111111100110111101100011").data), (("01110101101100011111000100001000").data)) =
    ((("01110101101100011111000100001000").data), (("10011110010001001010100001101111").data)) := by decide

set_option maxRecDepth 40000 in
theorem c4_round10 : desRound (("010110110010110110001101000000000100000000000000").data)
    ((("01110101101100011111000100001000").data), (("10011110010001001010100001101111").data)) =
    ((("10011110010001001010100001101111").data), (("01010010010101101100000111011100").data)) := by decide

set_option maxRecDepth 40000 in
theorem c4_round11 : desRound (("010110011010010010101101000000000000000000000000").data)
    ((("10011110010001001010100001101111").data), (("01010010010101101100000111011100").data)) =
    ((("01010010010101101100000111011100").data), (("01100011001010101101010101010011").data)) := by decide

set_option maxRecDepth 40000 in
theorem c4_round12 : desRound (("110100011000110010101110100000000000000000000000").data)
    ((("01010010010101101100000111011100").data), (("01100011001010101101010101010011").data)) =
    ((("01100011001010101101010101010011").data), (("10100000000111110101110001011010").data)) := by decide

set_option maxRecDepth 40000 in
theorem c4_round13 : desRound (("111100001010101010100110000000000000001000000000").data)
    ((("01100011001010101101010101010011").data), (("10100000000111110101110001011010").data)) =
    ((("10100000000111110101110001011010").data), (("10101010111001110011110110010101").data)) := by decide

set_option maxRecDepth 40000 in
theorem c4_round14 : desRound (("101100001011111000100110000100000000000000000000").data)
    ((("10100000000111110101110001011010").data), (("10101010111001110011110110010101").data)) =
    ((("10101010111001110011110110010101").data), (("11101011100001000100100000011001").data)) := by decide

set_option maxRecDepth 40000 in
theorem c4_round15 : desRound (("111000001011111001000110000000000000000000000100").data)
    ((("10101010111001110011110110010101").data), (("11101011100001000100100000011001").data)) =
    ((("11101011100001000100100000011001").data), (("10101110101000111111111111000011").data)) := by decide

set_option maxRecDepth 40000 in
set_option maxHeartbeats 2000000 in
theorem c4_block : desBlockSpec c4KeysA (List.replicate 64 '1') =
    (("1001011111010101011001001100111000000110110101001000110111110101").data) := by
  rw [desBlockSpec]
  rw [show rangeBits (List.replicate 64 '1') IP 64 = List.replicate 64 '1'
    from by decide]
  rw [show ((List.replicate 64 '1').take 32, (List.replicate 64 '1').drop 32) =
    ((("11111111111111111111111111111111").data), (("11111111111111111111111111111111").data)) from by decide]
  rw [show c4KeysA = [(("111000000011011001110110000000000000000000000000").data), (("011000001111011001110110000000000000000010000000").data), (("111001001101010101110010000000000000000000000001").data), (("111001101100001101110011000000100000000000000000").data), (("101011111101001100010011000000000000000100000000").data), (("001011110001001111011011000000000000000000000000").data), (("001111110101000011011001010000000000000000000000").data), (("000111110100100111011000000000000000000000001000").data), (("000101110110100111011001000000000000010000000000").data), (("000111110110110110000101000010000000000000000000").data), (("010110110010110110001101000000000100000000000000").data), (("010110011010010010101101000000000000000000000000").data), (("110100011000110010101110100000000000000000000000").data), (("111100001010101010100110000000000000001000000000").data), (("101100001011111000100110000100000000000000000000").data), (("111000001011111001000110000000000000000000000100").data)] from rfl]
  simp only [List.foldl_cons, List.foldl_nil, c4_round0, c4_round1, c4_round2, c4_round3, c4_round4, c4_round5, c4_round6, c4_round7, c4_round8, c4_round9, c4_round10, c4_round11, c4_round12, c4_round13, c4_round14, c4_round15]
  decide

set_option maxRecDepth 40000 in
theorem c4_hexbits : hexToBinary (("97D564CE06D48DF5").data) =
    (("1001011111010101011001001100111000000110110101001000110111110101").data) := by decide

theorem exceptMapOk {ε α β : Type} (f : α → β) (a : α) :
    (Except.map f (Except.ok a) : Except ε β) = Except.ok (f a) := rfl

theorem c4_inv : desBlockSpec c4KeysA.reverse (("1001011111010101011001001100111000000110110101001000110111110101").data) =
    List.replicate 64 '1' := by
  have h := desBlockSpec_inverse c4KeysA (List.replicate 64 '1') (by decide) (by decide)
  rw [c4_block] at h
  exact h

set_option maxRecDepth 40000 in
theorem c4_plainbits : createDESPlainBits (("97D564CE06D48DF5").data) (("A").data) =
    .ok (List.replicate 64 '1') := by
  have hb : IsBits (hexToBinary (("97D564CE06D48DF5").data)) := by
    rw [c4_hexbits]
    decide
  have hl : (hexToBinary (("97D564CE06D48DF5").data)).length % 64 = 0 := by
    rw [c4_hexbits]
    decide
  have hplain := createDESPlainBits_ok (("97D564CE06D48DF5").data) (("A").data)
    c4KeysA c4_keysA hb hl
  rw [c4_hexbits] at hplain
  rw [show chunksOf 64 ((("1001011111010101011001001100111000000110110101001000110111110101").data)) =
    [(("1001011111010101011001001100111000000110110101001000110111110101").data)] from by decide] at hplain
  rw [List.map_cons, List.map_nil, c4_inv] at hplain
  simpa using hplain

set_option maxRecDepth 40000 in
/-- C4, counterexample: the well-formed ciphertext 97D564CE06D48DF5 under the
key A decrypts to eight 0xFF bytes, which are not valid UTF-8; yet
`getDESPlainText` does not fail: the default `TextDecoder` replaces the
malformed bytes with U+FFFD replacement characters and a result is
returned. -/
theorem c4_returns_result_counterexample :
    (∀ c ∈ ("97D564CE06D48DF5").data, c ∈ hexDigitChars) ∧
    utf8Valid (List.replicate 8 255) = false ∧
    desRecoveredBytes (("97D564CE06D48DF5").data) (("A").data) =
      .ok (List.replicate 8 255) ∧
    getDESPlainText ("97D564CE06D48DF5") ("A") =
      .ok (String.mk (List.replicate 8 replChar)) := by
  refine ⟨by decide, by decide, ?_, ?_⟩
  · rw [desRecoveredBytes, c4_plainbits, exceptMapOk]
    rw [show binaryToBytes (List.replicate 64 '1') = List.replicate 8 255 from by decide]
  · show (createDESPlainText (("97D564CE06D48DF5").data) (("A").data)).map _ = _
    rw [createDESPlainText, c4_plainbits, exceptMapOk]
    rw [show binaryToString (List.replicate 64 '1') = List.replicate 8 replChar from by
      decide]
    rfl

/-- C4, amended: `binaryToString` never fails - the `TextDecoder` is used
with default options, so byte sequences that are not valid UTF-8 decode to
U+FFFD replacement characters - and decryption of any well-formed ciphertext
hex string under any valid key returns a result rather than failing. -/
theorem c4_decode_never_fails (H K : String)
    (hhex : ∀ c ∈ H.data, c ∈ hexDigitChars) (hlen : H.length % 16 = 0)
    (hne : K.data ≠ []) (hascii : ∀ c ∈ K.data, c.toNat ≤ 127) :
    ∃ pt, getDESPlainText H K = .ok pt := by
  obtain ⟨keys, hk, _, _⟩ := getOutPutKeys_ok K.data hne hascii
  obtain ⟨hb, hl⟩ := hexToBinary_wellformed H.data hhex
  have hlen2 : H.data.length % 16 = 0 := hlen
  have hdec := createDESPlainBits_ok H.data K.data keys hk hb (by rw [hl]; omega)
  refine ⟨String.mk (binaryToString (((chunksOf 64 (hexToBinary H.data)).map
    (desBlockSpec keys.reverse)).flatten)), ?_⟩
  show (createDESPlainText H.data K.data).map _ = _
  rw [createDESPlainText, hdec]
  rfl

theorem c4_decode_never_fails_witness :
    ∃ pt, getDESPlainText ("0123456789ABCDEF") ("A") = .ok pt :=
  c4_decode_never_fails ("0123456789ABCDEF") ("A") (by decide) (by decide)
    (by decide) (by decide)

end DES
